import Mathlib

/-!
# Fitness tracker: exercise library filter and statistics pipeline

A shallow embedding of the data transformations of
`src/components/ExerciseLibrary.js` and `src/components/Statistics.js`.

Conventions of the embedding.

* JavaScript strings are Lean strings; `String.prototype.toLowerCase` is a
  parameter of the definitions that use it, `String.prototype.includes` is
  the naive search of the language standard.
* Numeric fields read from the store are rationals, the values of the doubles
  they hold. The special results of the number type (the two infinities and
  NaN) are explicit in `JSNum`, and an arithmetic operator is the exact
  operation followed by the rounding to the nearest double
  (`roundToDouble`).
* A plain object used as a dictionary is an insertion-ordered association
  list (`Obj`).
-/

namespace FitnessTracker

/-! ## Exercise library (`ExerciseLibrary.js`) -/

/-- A document of the `exercises` collection as held in the `exercises`
state: `name` is always written by the add form, `muscleGroup` and `category`
may be missing from the document (`undefined`). -/
structure Exercise where
  id : String
  name : String
  muscleGroup : Option String
  category : Option String
deriving DecidableEq, Repr

/-- The search of `String.prototype.includes`, on the character sequences:
some position of `s` starts an occurrence of `t`. -/
def includes : List Char → List Char → Bool
  | [], t => t.isPrefixOf []
  | c :: s, t => t.isPrefixOf (c :: s) || includes s t

/-- Truthiness of a string: only the empty string is falsy. -/
def truthy (s : String) : Bool := s != ""

/-- The predicate of `filteredExercises` (ExerciseLibrary.js, lines 44-46). -/
def exerciseMatches (toLowerCase : String → String) (search filter filter2 : String)
    (exercise : Exercise) : Bool :=
  includes (toLowerCase exercise.name).data (toLowerCase search).data &&
  (!truthy filter || exercise.muscleGroup == some filter) &&
  (!truthy filter2 || exercise.category == some filter2)

/-- The list `filteredExercises` (ExerciseLibrary.js, lines 43-47). -/
def filteredExercises (toLowerCase : String → String) (exercises : List Exercise)
    (search filter filter2 : String) : List Exercise :=
  exercises.filter (exerciseMatches toLowerCase search filter filter2)

/-- Specification side: `name` contains `search` as a case-insensitive
substring, that is the case-folded search text occurs as a contiguous block of
the case-folded name. -/
def ContainsIgnoringCase (toLowerCase : String → String) (name search : String) : Prop :=
  (toLowerCase search).data <:+: (toLowerCase name).data

instance (toLowerCase : String → String) (name search : String) :
    Decidable (ContainsIgnoringCase toLowerCase name search) := by
  unfold ContainsIgnoringCase; infer_instance

/-- Specification side: the three conditions of the filter contract. -/
def MatchesFilters (toLowerCase : String → String) (search muscleGroup category : String)
    (e : Exercise) : Prop :=
  ContainsIgnoringCase toLowerCase e.name search ∧
  (muscleGroup ≠ "" → e.muscleGroup = some muscleGroup) ∧
  (category ≠ "" → e.category = some category)

instance (toLowerCase : String → String) (search muscleGroup category : String)
    (e : Exercise) : Decidable (MatchesFilters toLowerCase search muscleGroup category e) := by
  unfold MatchesFilters; infer_instance

/-! ## Numbers -/

/-- The value of a JavaScript arithmetic expression: a finite number, by its
exact value, or one of the three special values of the number type. The sign
of zero is not represented: every zero is the positive zero, which is the one
`37 - reps` produces. -/
inductive JSNum
  | fin (q : ℚ)
  | posInf
  | negInf
  | nan
deriving DecidableEq

namespace JSNum

/-- The exact product of the operator `*`, before it is rounded. -/
def mul : JSNum → JSNum → JSNum
  | nan, _ => nan
  | _, nan => nan
  | fin a, fin b => fin (a * b)
  | fin a, posInf => if a = 0 then nan else if 0 < a then posInf else negInf
  | fin a, negInf => if a = 0 then nan else if 0 < a then negInf else posInf
  | posInf, fin b => if b = 0 then nan else if 0 < b then posInf else negInf
  | negInf, fin b => if b = 0 then nan else if 0 < b then negInf else posInf
  | posInf, posInf => posInf
  | posInf, negInf => negInf
  | negInf, posInf => negInf
  | negInf, negInf => posInf

/-- The exact quotient of the operator `/`, before it is rounded. A finite
number over zero is an infinity of the sign of the dividend, and zero over
zero is NaN. -/
def div : JSNum → JSNum → JSNum
  | nan, _ => nan
  | _, nan => nan
  | fin a, fin b =>
    if b = 0 then (if a = 0 then nan else if 0 < a then posInf else negInf) else fin (a / b)
  | fin _, posInf => fin 0
  | fin _, negInf => fin 0
  | posInf, fin b => if 0 ≤ b then posInf else negInf
  | negInf, fin b => if 0 ≤ b then negInf else posInf
  | posInf, posInf => nan
  | posInf, negInf => nan
  | negInf, posInf => nan
  | negInf, negInf => nan

/-- The function `Math.round`: the nearest integer, a half rounding up. The
nearest integer of a double is a double, so this result is not rounded
again. -/
def round : JSNum → JSNum
  | fin q => fin (⌊q + 1 / 2⌋ : ℤ)
  | x => x

/-- The larger of two values as `Math.max` orders them; NaN is contagious. -/
def max : JSNum → JSNum → JSNum
  | nan, _ => nan
  | _, nan => nan
  | posInf, _ => posInf
  | _, posInf => posInf
  | negInf, y => y
  | x, negInf => x
  | fin a, fin b => if a < b then fin b else fin a

end JSNum

/-- Rounding of a rational to an integer, to the nearest one, a half going to
the even neighbour. -/
def roundHalfEven (x : ℚ) : ℤ :=
  if x - ⌊x⌋ < 1 / 2 then ⌊x⌋
  else if 1 / 2 < x - ⌊x⌋ then ⌊x⌋ + 1
  else if ⌊x⌋ % 2 = 0 then ⌊x⌋ else ⌊x⌋ + 1

/-- The exponent of the last bit of the 53-bit significand of the doubles
around a positive `a`; it is -1074 for the subnormal ones. -/
def ulpExponent (a : ℚ) : ℤ := max (Int.log 2 a - 52) (-1074)

/-- A non-negative `a` rounded to 53 significant bits, with no bound on the
exponent from above. -/
def roundedMagnitude (a : ℚ) : ℚ :=
  (roundHalfEven (a / 2 ^ ulpExponent a) : ℚ) * 2 ^ ulpExponent a

/-- The double (IEEE 754 binary64) nearest to a rational, a tie going to the
even significand; a magnitude that rounds to `2 ^ 1024` or more is an
infinity. -/
def roundToDouble (q : ℚ) : JSNum :=
  if (2 : ℚ) ^ (1024 : ℤ) ≤ roundedMagnitude |q| then (if 0 < q then .posInf else .negInf)
  else .fin (if 0 < q then roundedMagnitude |q| else -roundedMagnitude |q|)

/-- The rounding of the result of an arithmetic operator to a double; the
special values are doubles already. -/
def JSNum.toDouble : JSNum → JSNum
  | .fin q => roundToDouble q
  | x => x

/-- A rational is the value of a finite double: a significand below `2 ^ 53`
in magnitude times a power of two of exponent -1074 to 971. -/
def IsDouble (q : ℚ) : Prop :=
  ∃ m e : ℤ, |m| < 2 ^ 53 ∧ -1074 ≤ e ∧ e ≤ 971 ∧ q = m * 2 ^ e

/-- The function `Math.max` applied to the spread of an array of finite
numbers; with no argument it is `-Infinity`. -/
def mathMax (xs : List ℚ) : JSNum :=
  xs.foldl (fun acc x => JSNum.max acc (.fin x)) .negInf

/-! ## Logged entries and dates -/

/-- A calendar day, as `new Date(entry.date)` shows it in the time zone of
the runtime. -/
structure CalDate where
  year : Nat
  month : Nat
  day : Nat
deriving DecidableEq, Repr

/-- A document of the `exerciseStats` collection. -/
structure Entry where
  exerciseId : String
  date : CalDate
  weight : ℚ
  reps : ℤ
  volume : ℚ
  metric : ℚ
deriving DecidableEq

/-- The locale of the runtime, by the shape `toLocaleDateString()` gives a
date: `enUS` writes month/day/year without padding (`10/11/2024` is the 11th
of October), `enGB` writes day/month/year with two-digit day and month
(`10/11/2024` is the 10th of November). -/
inductive Locale
  | enUS
  | enGB
deriving DecidableEq, Repr

/-- The decimal digits of a number below one hundred, two of them. -/
def pad2 (n : Nat) : List Char :=
  [Nat.digitChar (n / 10 % 10), Nat.digitChar (n % 10)]

/-- The method `Date.prototype.toLocaleDateString` with no argument. -/
def toLocaleDateString : Locale → CalDate → String
  | .enUS, d =>
    toString d.month ++ "/" ++ toString d.day ++ "/" ++ toString d.year
  | .enGB, d =>
    String.mk (if d.day < 10 then pad2 d.day else (toString d.day).data) ++ "/" ++
    String.mk (if d.month < 10 then pad2 d.month else (toString d.month).data) ++ "/" ++
    toString d.year

/-! ## Plain objects used as dictionaries -/

/-- A plain object with string keys: its own properties in insertion order
(the keys used here are never array indices). -/
abbrev Obj (α : Type) := List (String × α)

namespace Obj

/-- The property read `o[k]`; `none` is `undefined`. -/
def get {α : Type} : Obj α → String → Option α
  | [], _ => none
  | (k', v) :: o, k => if k' = k then some v else get o k

/-- The assignment `o[k] = v`: an existing property keeps its place, a new
one goes last. -/
def set {α : Type} : Obj α → String → α → Obj α
  | [], k, v => [(k, v)]
  | (k', v') :: o, k, v => if k' = k then (k, v) :: o else (k', v') :: set o k v

/-- The list `Object.keys(o)`. -/
def keys {α : Type} (o : Obj α) : List String := o.map Prod.fst

end Obj

/-! ## Statistics (`Statistics.js`) -/

/-- The object `calculateStats` returns; a property that is absent is
`none`. -/
structure Stats where
  maxWeight : Option JSNum
  maxVolume : Option JSNum
  estimated1RM : Option JSNum
deriving DecidableEq

/-- The empty object `{}`. -/
def Stats.empty : Stats := ⟨none, none, none⟩

/-- The expression `Math.round(weight * (36 / (37 - reps)))` of lines 84 and
127, in the arithmetic of doubles: the difference, the quotient and the
product are each rounded to the nearest double. -/
def est1RM (weight : ℚ) (reps : ℤ) : JSNum :=
  JSNum.round (JSNum.toDouble (JSNum.mul (.fin weight)
    (JSNum.toDouble (JSNum.div (.fin 36) (JSNum.toDouble (.fin (37 - (reps : ℚ))))))))

/-- The function `calculateStats` (lines 77-87). The argument is `none` when
the caller passes `undefined`. Reading a property of an `undefined`
`mostRecentData` is a `TypeError`. -/
def calculateStats (exerciseData : Option (List Entry)) : Except String Stats :=
  match exerciseData with
  | none => .ok Stats.empty
  | some exerciseData =>
    if exerciseData.length = 0 then .ok Stats.empty
    else
      let maxWeight := mathMax (exerciseData.map (fun data => data.weight))
      let maxVolume := mathMax (exerciseData.map (fun data => data.volume))
      match exerciseData[exerciseData.length - 1]? with
      | none => .error "TypeError"
      | some mostRecentData =>
        .ok ⟨some maxWeight, some maxVolume,
             some (est1RM mostRecentData.weight mostRecentData.reps)⟩

/-- One step of the reduction of lines 95-103. -/
def groupStep (loc : Locale) (acc : Obj Entry) (entry : Entry) : Obj Entry :=
  let date := toLocaleDateString loc entry.date
  match acc.get date with
  | none => acc.set date entry
  | some best => if entry.metric > best.metric then acc.set date entry else acc

/-- The object `groupedData` (lines 95-103). -/
def groupedData (loc : Locale) (entries : List Entry) : Obj Entry :=
  entries.foldl (groupStep loc) []

/-- The method `String.prototype.split` with a one-character separator. -/
def split (sep : Char) : List Char → List (List Char)
  | [] => [[]]
  | c :: cs =>
    match split sep cs with
    | [] => [[c]]
    | w :: ws => if c = sep then [] :: w :: ws else (c :: w) :: ws

/-- The number a run of decimal digits denotes. -/
def digitsValue (cs : List Char) : Nat :=
  cs.foldl (fun n c => 10 * n + (c.toNat - 48)) 0

/-- A non-empty run of decimal digits as a number. -/
def parseDigits (cs : List Char) : Option Nat :=
  if cs ≠ [] ∧ cs.all Char.isDigit = true then some (digitsValue cs) else none

/-- A run of characters is the decimal writing of `n`. -/
def Writes (cs : List Char) (n : Nat) : Prop :=
  cs ≠ [] ∧ (∀ c ∈ cs, c.isDigit = true) ∧ digitsValue cs = n

/-- The day number of a proleptic Gregorian date, the first of January 1970
being day zero; a day beyond the end of its month runs on into the next. -/
def dayNumber (y m d : Nat) : Int :=
  let y1 : Int := if m ≤ 2 then (y : Int) - 1 else y
  let era : Int := y1 / 400
  let yoe : Int := y1 - era * 400
  let mp : Int := if m ≤ 2 then (m : Int) + 9 else (m : Int) - 3
  let doy : Int := (153 * mp + 2) / 5 + d - 1
  let doe : Int := yoe * 365 + yoe / 4 - yoe / 100 + doy
  era * 146097 + doe - 719468

/-- The time value of `new Date(s)` for a string of three numeric fields
joined by `-`, in whole days; `none` is an Invalid Date. Two-digit month and
day are the date-only form of the language standard; one-digit fields are
read the way V8 reads them, as year, month, day. The offset of the time zone
is left out: it is below one day and the same for all labels of one
shape. -/
def dateParse (s : List Char) : Option Int :=
  match split '-' s with
  | [y, m, d] =>
    match parseDigits y, parseDigits m, parseDigits d with
    | some y, some m, some d =>
      if 1 ≤ m ∧ m ≤ 12 ∧ 1 ≤ d ∧ d ≤ 31 then some (dayNumber y m d) else none
    | _, _, _ => none
  | _ => none

/-- The expression `new Date(a.split('/').reverse().join('-'))` of lines 107
and 108. -/
def labelDate (a : String) : Option Int :=
  dateParse (List.intercalate ['-'] (split '/' a.data).reverse)

/-- The comparator of lines 106-110, `dateA - dateB`; `none` is NaN. -/
def compareLabels (a b : String) : Option Int :=
  match labelDate a, labelDate b with
  | some dateA, some dateB => some (dateA - dateB)
  | _, _ => none

/-- Insertion of `a` into a sorted list, before the first element it does
not follow. A comparator result of NaN counts as zero. -/
def sortInsert {α : Type} (cmp : α → α → Option Int) (a : α) : List α → List α
  | [] => [a]
  | b :: l => if (cmp a b).getD 0 ≤ 0 then a :: b :: l else b :: sortInsert cmp a l

/-- The method `Array.prototype.sort` with a comparator: a stable sort. -/
def arraySort {α : Type} (cmp : α → α → Option Int) (l : List α) : List α :=
  l.foldr (sortInsert cmp) []

/-- The array `sortedDates` (lines 106-110). -/
def sortedDates (groupedData : Obj Entry) : List String :=
  arraySort compareLabels groupedData.keys

/-- The method `Array.prototype.map` with a callback that may throw. -/
def mapExcept {α β : Type} (f : α → Except String β) : List α → Except String (List β)
  | [] => .ok []
  | a :: l =>
    match f a with
    | .error e => .error e
    | .ok b =>
      match mapExcept f l with
      | .error e => .error e
      | .ok bs => .ok (b :: bs)

/-- The object `data` handed to the chart (lines 114-134): the labels and
the values of the two datasets. -/
structure ChartData where
  labels : List String
  metricSeries : List ℚ
  est1RMSeries : List JSNum
deriving DecidableEq

/-- What `renderGraph` returns: the placeholder text or the line chart. -/
inductive Rendered
  | noData (exerciseName : String)
  | line (data : ChartData)
deriving DecidableEq

/-- The callback of line 119, `date => groupedData[date].metric`. Reading a
property of an `undefined` `groupedData[date]` is a `TypeError`. -/
def metricAt (groupedData : Obj Entry) (date : String) : Except String ℚ :=
  match groupedData.get date with
  | none => .error "TypeError"
  | some e => .ok e.metric

/-- The callback of line 127,
`date => Math.round(groupedData[date].weight * (36 / (37 - groupedData[date].reps)))`. -/
def est1RMAt (groupedData : Obj Entry) (date : String) : Except String JSNum :=
  match groupedData.get date with
  | none => .error "TypeError"
  | some e => .ok (est1RM e.weight e.reps)

/-- The function `renderGraph` (lines 89-168). -/
def renderGraph (loc : Locale) (exerciseData : Obj (Option (List Entry)))
    (exerciseName : String) : Except String Rendered :=
  match (exerciseData.get exerciseName).join with
  | none => .ok (.noData exerciseName)
  | some entries =>
    if entries.length = 0 then .ok (.noData exerciseName)
    else
      let groupedData := groupedData loc entries
      let sortedDates := sortedDates groupedData
      match mapExcept (metricAt groupedData) sortedDates with
      | .error e => .error e
      | .ok metricSeries =>
        match mapExcept (est1RMAt groupedData) sortedDates with
        | .error e => .error e
        | .ok est1RMSeries => .ok (.line ⟨sortedDates, metricSeries, est1RMSeries⟩)

/-- The document store, by the two queries the view sends: the exercises of
a given name and the logged entries of a given user. A query may fail. -/
structure Remote where
  exercisesByName : String → Except String (List Exercise)
  statsByUser : String → Except String (List Entry)

/-- The state of the `Statistics` component. -/
structure ViewState where
  loading : Bool
  error : Option String
  stats : List Entry
  selectedExercises : List String
  exerciseData : Obj (Option (List Entry))
  isLibraryOpen : Bool
deriving DecidableEq

/-- The function `getExerciseDocByName` (lines 68-75); `none` is `null`. -/
def getExerciseDocByName (remote : Remote) (name : String) :
    Except String (Option Exercise) :=
  match remote.exercisesByName name with
  | .error e => .error e
  | .ok docs => if !docs.isEmpty then .ok docs[0]? else .ok none

/-- The function `getExerciseData` (lines 60-66), with the `stats` of the
render it was created in; `none` is `undefined`. -/
def getExerciseData (remote : Remote) (stats : List Entry) (exerciseName : String) :
    Except String (Option (List Entry)) :=
  match getExerciseDocByName remote exerciseName with
  | .error e => .error e
  | .ok none => .ok none
  | .ok (some exerciseDoc) =>
    .ok (some (stats.filter (fun stat => stat.exerciseId == exerciseDoc.id)))

/-- The function `handleAddExercise` (lines 171-179). A failed query rejects
the handler before any state is set. -/
def handleAddExercise (remote : Remote) (s : ViewState) (exercise : Exercise) :
    Except String ViewState :=
  let exerciseName := exercise.name
  if !s.selectedExercises.contains exerciseName then
    match getExerciseData remote s.stats exerciseName with
    | .error e => .error e
    | .ok exerciseData =>
      .ok { s with
            exerciseData := s.exerciseData.set exerciseName exerciseData
            selectedExercises := s.selectedExercises ++ [exerciseName]
            isLibraryOpen := false }
  else
    .ok { s with isLibraryOpen := false }

/-- The callback of lines 37-40: the entries of one tracked exercise, as the
one-property object `{ [exercise]: exerciseData }`. -/
def resolveExercise (remote : Remote) (stats : List Entry) (exercise : String) :
    Except String (String × Option (List Entry)) :=
  match getExerciseData remote stats exercise with
  | .error e => .error e
  | .ok exerciseData => .ok (exercise, exerciseData)

/-- The reduction of lines 44-47, the spread of every resolved object into
one. -/
def mergeExerciseData (resolved : List (String × Option (List Entry))) :
    Obj (Option (List Entry)) :=
  resolved.foldl (fun acc curr => acc.set curr.1 curr.2) []

/-- The function `fetchStats` (lines 24-58) run in the render whose state is
`s`, with `auth.currentUser` given by its identifier. The per-exercise calls
read the `stats` of that render. -/
def fetchStats (remote : Remote) (currentUser : Option String) (s : ViewState) : ViewState :=
  match currentUser with
  | none => { s with loading := false }
  | some uid =>
    match remote.statsByUser uid with
    | .error _ => { s with error := some "Failed to fetch statistics", loading := false }
    | .ok data =>
      match mapExcept (resolveExercise remote s.stats) s.selectedExercises with
      | .error _ =>
        { s with stats := data, error := some "Failed to fetch statistics", loading := false }
      | .ok resolvedExerciseData =>
        { s with
          stats := data
          exerciseData := mergeExerciseData resolvedExerciseData
          loading := false }

/-- A set logged on the 11th of October 2024. -/
def loggedOct11 : Entry := ⟨"deadlift", ⟨2024, 10, 11⟩, 100, 5, 500, 500⟩

/-- A set logged on the 10th of November 2024. -/
def loggedNov10 : Entry := ⟨"deadlift", ⟨2024, 11, 10⟩, 105, 5, 525, 525⟩

/-- A set of 13.125 kg for 2 repetitions, logged on the 11th of October
2024. -/
def loggedEighths : Entry := ⟨"deadlift", ⟨2024, 10, 11⟩, 105 / 8, 2, 105 / 4, 105 / 4⟩

/-- The state of the component at its first render (lines 12-17). -/
def initialState : ViewState :=
  { loading := true
    error := none
    stats := []
    selectedExercises := ["Deadlift", "Bench Press", "Back Squat", "Hip Thrust"]
    exerciseData := []
    isLibraryOpen := false }

/-- A store whose catalog and log are empty: every query succeeds with no
document. -/
def emptyRemote : Remote := ⟨fun _ => .ok [], fun _ => .ok []⟩

/-- The `exerciseData` state with two sets logged for the deadlift. -/
def deadliftData : Obj (Option (List Entry)) :=
  [("Deadlift", some [loggedOct11, loggedNov10])]

/-- What the reduction of `groupedData` keeps true: after the entries of
`done`, the accumulator has one property per date label of `done`, and the
entry under a label is the first of `done` with the greatest metric of that
label. -/
def GroupInv (loc : Locale) (acc : Obj Entry) (done : List Entry) : Prop :=
  acc.keys.Nodup ∧
  (∀ k, k ∈ acc.keys ↔ ∃ e ∈ done, toLocaleDateString loc e.date = k) ∧
  (∀ k r, acc.get k = some r →
    toLocaleDateString loc r.date = k ∧
    ∃ pre post, done = pre ++ r :: post ∧
      (∀ e ∈ pre, toLocaleDateString loc e.date = k → e.metric < r.metric) ∧
      (∀ e ∈ post, toLocaleDateString loc e.date = k → e.metric ≤ r.metric))

/-- Two logged sets of the first of March 2024 with the same metric, 600:
the first of 100 kg for 6 repetitions, the second of 120 kg for 5. -/
def tieFirst : Entry := ⟨"deadlift", ⟨2024, 3, 1⟩, 100, 6, 600, 600⟩

/-- The second of the two sets of equal metric; see `tieFirst`. -/
def tieSecond : Entry := ⟨"deadlift", ⟨2024, 3, 1⟩, 120, 5, 600, 600⟩

/-! ## The load and what the view shows -/

/-- The first statement of the effect of lines 19-22, `setLoading(true)`. -/
def startLoad (s : ViewState) : ViewState := { s with loading := true }

/-- The effect of lines 19-22, which React runs after the first render and
after every render in which `selectedExercises` has changed: one load. -/
def statsEffect (remote : Remote) (currentUser : Option String) (s : ViewState) :
    ViewState :=
  fetchStats remote currentUser (startLoad s)

/-- What the component returns (lines 206-252): the progress indicator, the
error text, or the charts. -/
inductive Phase
  | loading
  | failed (message : String)
  | ready
deriving DecidableEq, Repr

/-- The branches of lines 206-221, `if (loading)` and `if (error)`. -/
def phase (s : ViewState) : Phase :=
  if s.loading then .loading
  else
    match s.error with
    | none => .ready
    | some message => if truthy message then .failed message else .ready

/-- A store with one exercise, the deadlift, and two logged sets of it for
every user. -/
def deadliftRemote : Remote :=
  ⟨fun name =>
      if name = "Deadlift" then .ok [⟨"deadlift", "Deadlift", some "Back", some "Hinge"⟩]
      else .ok [],
   fun _ => .ok [loggedOct11, loggedNov10]⟩

/-- A store that cannot be reached: every query fails. -/
def failingRemote : Remote := ⟨fun _ => .error "unavailable", fun _ => .error "unavailable"⟩

/-- A set logged for another exercise, the squat. -/
def loggedSquat : Entry := ⟨"squat", ⟨2024, 10, 12⟩, 80, 8, 640, 640⟩

/-! ## Workout plan (`WorkoutPlanDetail.js`) -/

/-- A set of a set group, by the properties the component reads. -/
structure PlanSet where
  exerciseId : String
  number : Nat
  reps : Nat
  notes : Option String
deriving DecidableEq, Repr

/-- A set group of a workout plan. -/
structure SetGroup where
  isSuperSet : Bool
  number : Nat
  sets : List PlanSet
deriving DecidableEq, Repr

/-- A document of the `workoutPlans` collection as held in the `workoutPlan`
state. -/
structure WorkoutPlan where
  id : String
  name : String
  setGroups : List SetGroup
deriving DecidableEq, Repr

/-- The function `calculateEstimatedDuration` (WorkoutPlanDetail.js, lines
76-81), in minutes. -/
def calculateEstimatedDuration (workoutPlan : WorkoutPlan) : Nat :=
  let avgSetDuration := 2
  let totalSets := workoutPlan.setGroups.foldl (fun total group => total + group.sets.length) 0
  totalSets * avgSetDuration

/-! ## Theorems -/

theorem includes_iff_infix (s t : List Char) : includes s t = true ↔ t <:+: s := by
  induction s with
  | nil =>
    cases t <;> simp [includes, List.isPrefixOf]
  | cons c s ih =>
    rw [includes, Bool.or_eq_true, ih, List.infix_cons_iff, List.isPrefixOf_iff_prefix]

theorem exerciseMatches_iff (toLowerCase : String → String) (search filter filter2 : String)
    (e : Exercise) :
    exerciseMatches toLowerCase search filter filter2 e = true ↔
      MatchesFilters toLowerCase search filter filter2 e := by
  unfold exerciseMatches MatchesFilters ContainsIgnoringCase truthy
  rw [Bool.and_eq_true, Bool.and_eq_true, includes_iff_infix, and_assoc]
  by_cases h1 : filter = "" <;> by_cases h2 : filter2 = "" <;> simp [h1, h2]

/-- C1: `filteredExercises` is exactly the sublist of `all`, in the original
order, of the exercises whose name contains the search text as a
case-insensitive substring and which agree with each non-empty filter; with
both filters empty it is exactly the case-insensitive substring matches. -/
theorem filteredExercises_spec (toLowerCase : String → String) (all : List Exercise)
    (search muscleGroup category : String) :
    filteredExercises toLowerCase all search muscleGroup category =
        all.filter (fun e => decide (MatchesFilters toLowerCase search muscleGroup category e))
    ∧ (filteredExercises toLowerCase all search muscleGroup category).Sublist all
    ∧ filteredExercises toLowerCase all search "" "" =
        all.filter (fun e => decide (ContainsIgnoringCase toLowerCase e.name search)) := by
  refine ⟨?_, List.filter_sublist _, ?_⟩
  · unfold filteredExercises
    apply List.filter_congr
    intro e _
    rw [Bool.eq_iff_iff, exerciseMatches_iff, decide_eq_true_iff]
  · unfold filteredExercises
    apply List.filter_congr
    intro e _
    rw [Bool.eq_iff_iff, exerciseMatches_iff, decide_eq_true_iff]
    simp [MatchesFilters]

/-! ### Dictionaries -/

theorem Obj.get_set_self {α : Type} (o : Obj α) (k : String) (v : α) :
    (o.set k v).get k = some v := by
  induction o with
  | nil => simp [Obj.set, Obj.get]
  | cons p o ih =>
    obtain ⟨k', v'⟩ := p
    by_cases h : k' = k
    · simp [Obj.set, Obj.get, h]
    · simp [Obj.set, Obj.get, h, ih]

theorem Obj.get_set_ne {α : Type} (o : Obj α) (k k1 : String) (v : α) (hne : k ≠ k1) :
    (o.set k v).get k1 = o.get k1 := by
  induction o with
  | nil => simp [Obj.set, Obj.get, hne]
  | cons p o ih =>
    obtain ⟨k', v'⟩ := p
    by_cases h : k' = k
    · subst h
      simp [Obj.set, Obj.get, hne]
    · by_cases h1 : k' = k1
      · subst h1
        simp [Obj.set, Obj.get, h]
      · simp [Obj.set, Obj.get, h, h1, ih]

theorem Obj.get_eq_none_iff {α : Type} (o : Obj α) (k : String) :
    o.get k = none ↔ k ∉ o.keys := by
  induction o with
  | nil => simp [Obj.get, Obj.keys]
  | cons p o ih =>
    obtain ⟨k', v'⟩ := p
    by_cases h : k' = k
    · simp [Obj.get, Obj.keys, h]
    · have h2 : ¬ k = k' := fun e => h e.symm
      simp only [Obj.get, h, if_false, ih]
      simp [Obj.keys, h2]

theorem Obj.keys_set_of_mem {α : Type} (o : Obj α) (k : String) (v : α) (h : k ∈ o.keys) :
    (o.set k v).keys = o.keys := by
  induction o with
  | nil => simp [Obj.keys] at h
  | cons p o ih =>
    obtain ⟨k', v'⟩ := p
    by_cases h1 : k' = k
    · simp [Obj.set, Obj.keys, h1]
    · have h2 : ¬ k = k' := fun e => h1 e.symm
      have hm : k ∈ Obj.keys o := by simpa [Obj.keys, h2] using h
      have := ih hm
      simp only [Obj.keys] at this ⊢
      simp [Obj.set, h1, this]

theorem Obj.keys_set_of_not_mem {α : Type} (o : Obj α) (k : String) (v : α)
    (h : k ∉ o.keys) : (o.set k v).keys = o.keys ++ [k] := by
  induction o with
  | nil => simp [Obj.keys, Obj.set]
  | cons p o ih =>
    obtain ⟨k', v'⟩ := p
    have h1 : ¬ k' = k := by
      intro e; apply h; simp [Obj.keys, e]
    have hm : k ∉ Obj.keys o := by
      intro e; apply h; simp only [Obj.keys] at e ⊢; simp [e]
    have := ih hm
    simp only [Obj.keys] at this ⊢
    simp [Obj.set, h1, this]

theorem Obj.get_of_mem {α : Type} (o : Obj α) (hnd : o.keys.Nodup) (k : String) (v : α)
    (h : (k, v) ∈ o) : o.get k = some v := by
  induction o with
  | nil => simp at h
  | cons p o ih =>
    obtain ⟨k', v'⟩ := p
    simp only [Obj.keys, List.map_cons, List.nodup_cons] at hnd
    rcases List.mem_cons.mp h with h | h
    · cases h
      simp [Obj.get]
    · have hk : k ∈ o.map Prod.fst := List.mem_map.mpr ⟨(k, v), h, rfl⟩
      have h1 : ¬ k' = k := by
        intro e; subst e; exact hnd.1 hk
      simp only [Obj.get, h1, if_false]
      exact ih hnd.2 h

theorem Obj.mem_of_get {α : Type} (o : Obj α) (k : String) (v : α)
    (h : o.get k = some v) : (k, v) ∈ o := by
  induction o with
  | nil => simp [Obj.get] at h
  | cons p o ih =>
    obtain ⟨k', v'⟩ := p
    by_cases h1 : k' = k
    · simp only [Obj.get, h1, if_true, Option.some.injEq] at h
      simp [h1, h]
    · simp only [Obj.get, h1, if_false] at h
      exact List.mem_cons_of_mem _ (ih h)

/-! ### The grouping by day -/

theorem groupInv_nil (loc : Locale) : GroupInv loc [] [] := by
  refine ⟨by simp [Obj.keys], by simp [Obj.keys], ?_⟩
  intro k r h
  simp [Obj.get] at h

theorem groupInv_step (loc : Locale) (acc : Obj Entry) (done : List Entry) (entry : Entry)
    (inv : GroupInv loc acc done) : GroupInv loc (groupStep loc acc entry) (done ++ [entry]) := by
  obtain ⟨hnd, hkeys, hrep⟩ := inv
  -- entries kept under other labels are not disturbed by `entry`
  have keep : ∀ k r, toLocaleDateString loc entry.date ≠ k → acc.get k = some r →
      toLocaleDateString loc r.date = k ∧
      ∃ pre post, done ++ [entry] = pre ++ r :: post ∧
        (∀ e ∈ pre, toLocaleDateString loc e.date = k → e.metric < r.metric) ∧
        (∀ e ∈ post, toLocaleDateString loc e.date = k → e.metric ≤ r.metric) := by
    intro k r hne hg
    obtain ⟨hk, pre, post, hd, hpre, hpost⟩ := hrep k r hg
    refine ⟨hk, pre, post ++ [entry], by simp [hd], hpre, ?_⟩
    intro e he hek
    rcases List.mem_append.mp he with he | he
    · exact hpost e he hek
    · simp only [List.mem_singleton] at he
      subst he
      exact absurd hek hne
  -- `entry` replaces what is kept under its own label
  have replace : (∀ e ∈ done, toLocaleDateString loc e.date = toLocaleDateString loc entry.date →
        e.metric < entry.metric) →
      GroupInv loc (acc.set (toLocaleDateString loc entry.date) entry) (done ++ [entry]) := by
    intro hlt
    refine ⟨?_, ?_, ?_⟩
    · by_cases hm : toLocaleDateString loc entry.date ∈ acc.keys
      · rw [Obj.keys_set_of_mem _ _ _ hm]; exact hnd
      · rw [Obj.keys_set_of_not_mem _ _ _ hm]
        exact List.Nodup.append hnd (List.nodup_singleton _) (by simpa using hm)
    · intro k
      have hk := hkeys k
      by_cases hm : toLocaleDateString loc entry.date ∈ acc.keys
      · rw [Obj.keys_set_of_mem _ _ _ hm, hk]
        constructor
        · rintro ⟨e, he, hek⟩
          exact ⟨e, List.mem_append_left _ he, hek⟩
        · rintro ⟨e, he, hek⟩
          rcases List.mem_append.mp he with he | he
          · exact ⟨e, he, hek⟩
          · simp only [List.mem_singleton] at he
            subst he
            exact (hkeys k).mp (hek ▸ hm)
      · rw [Obj.keys_set_of_not_mem _ _ _ hm, List.mem_append, hk]
        constructor
        · rintro (⟨e, he, hek⟩ | h)
          · exact ⟨e, List.mem_append_left _ he, hek⟩
          · exact ⟨entry, by simp, (List.mem_singleton.mp h).symm⟩
        · rintro ⟨e, he, hek⟩
          rcases List.mem_append.mp he with he | he
          · exact Or.inl ⟨e, he, hek⟩
          · simp only [List.mem_singleton] at he
            subst he
            exact Or.inr (by simp [hek])
    · intro k r hg
      by_cases hk : toLocaleDateString loc entry.date = k
      · subst hk
        rw [Obj.get_set_self] at hg
        cases hg
        exact ⟨rfl, done, [], rfl, hlt, by simp⟩
      · rw [Obj.get_set_ne _ _ _ _ hk] at hg
        exact keep k r hk hg
  unfold groupStep
  simp only
  cases hget : acc.get (toLocaleDateString loc entry.date) with
  | none =>
    apply replace
    intro e he hek
    have : toLocaleDateString loc entry.date ∈ acc.keys := (hkeys _).mpr ⟨e, he, hek⟩
    exact absurd this ((Obj.get_eq_none_iff _ _).mp hget)
  | some best =>
    obtain ⟨hbk, pre, post, hd, hpre, hpost⟩ := hrep _ best hget
    simp only
    by_cases hgt : entry.metric > best.metric
    · rw [if_pos hgt]
      apply replace
      intro e he hek
      rw [hd] at he
      rcases List.mem_append.mp he with he | he
      · exact lt_trans (hpre e he hek) hgt
      · rcases List.mem_cons.mp he with he | he
        · subst he; exact hgt
        · exact lt_of_le_of_lt (hpost e he hek) hgt
    · rw [if_neg hgt]
      refine ⟨hnd, ?_, ?_⟩
      · intro k
        rw [hkeys k]
        constructor
        · rintro ⟨e, he, hek⟩
          exact ⟨e, List.mem_append_left _ he, hek⟩
        · rintro ⟨e, he, hek⟩
          rcases List.mem_append.mp he with he | he
          · exact ⟨e, he, hek⟩
          · simp only [List.mem_singleton] at he
            subst he
            exact ⟨best, by simp [hd], hbk.trans hek⟩
      · intro k r hg
        by_cases hk : toLocaleDateString loc entry.date = k
        · subst hk
          rw [hget] at hg
          cases hg
          refine ⟨hbk, pre, post ++ [entry], by simp [hd], hpre, ?_⟩
          intro e he hek
          rcases List.mem_append.mp he with he | he
          · exact hpost e he hek
          · simp only [List.mem_singleton] at he
            subst he
            exact not_lt.mp hgt
        · exact keep k r hk hg

theorem groupInv_foldl (loc : Locale) (rest : List Entry) :
    ∀ (acc : Obj Entry) (done : List Entry), GroupInv loc acc done →
      GroupInv loc (rest.foldl (groupStep loc) acc) (done ++ rest) := by
  induction rest with
  | nil => intro acc done inv; simpa using inv
  | cons e rest ih =>
    intro acc done inv
    have := ih _ _ (groupInv_step loc acc done e inv)
    simpa using this

theorem groupInv_groupedData (loc : Locale) (entries : List Entry) :
    GroupInv loc (groupedData loc entries) entries := by
  have := groupInv_foldl loc entries [] [] (groupInv_nil loc)
  simpa [groupedData] using this

theorem groupedData_mem_iff_get (loc : Locale) (entries : List Entry) (k : String) (r : Entry) :
    (k, r) ∈ groupedData loc entries ↔ (groupedData loc entries).get k = some r :=
  ⟨Obj.get_of_mem _ (groupInv_groupedData loc entries).1 k r, Obj.mem_of_get _ k r⟩

theorem groupedData_tie_eval :
    groupedData .enUS [tieFirst, tieSecond] = [("3/1/2024", tieFirst)] := by
  have hk1 : toLocaleDateString .enUS tieFirst.date = "3/1/2024" := by decide
  have hk2 : toLocaleDateString .enUS tieSecond.date = "3/1/2024" := by decide
  have hm : ¬ (tieSecond.metric > tieFirst.metric) := by
    simp [tieFirst, tieSecond]
  simp only [groupedData, List.foldl, groupStep, hk1, hk2, Obj.get, Obj.set, if_true, if_neg hm]

/-- C2: the grouping of `renderGraph` keeps exactly one entry per date label
of the input; the entry kept under a label is an input entry of that date and
no input entry of that date has a greater metric. For entries of metric 50
and 80 on one day and 60 on another the result is the two points D1→80 and
D2→60. -/
theorem groupedData_one_per_day (loc : Locale) (entries : List Entry) :
    (groupedData loc entries).keys.Nodup ∧
    (∀ k, k ∈ (groupedData loc entries).keys ↔
      ∃ e ∈ entries, toLocaleDateString loc e.date = k) ∧
    (∀ k r, (k, r) ∈ groupedData loc entries →
      r ∈ entries ∧ toLocaleDateString loc r.date = k ∧
      ∀ e ∈ entries, toLocaleDateString loc e.date = k → e.metric ≤ r.metric) ∧
    (∀ e1 e2 e3 : Entry,
      toLocaleDateString loc e1.date = toLocaleDateString loc e2.date →
      toLocaleDateString loc e3.date ≠ toLocaleDateString loc e1.date →
      e1.metric = 50 → e2.metric = 80 → e3.metric = 60 →
      groupedData loc [e1, e2, e3] =
        [(toLocaleDateString loc e1.date, e2), (toLocaleDateString loc e3.date, e3)]) := by
  obtain ⟨hnd, hkeys, hrep⟩ := groupInv_groupedData loc entries
  refine ⟨hnd, hkeys, ?_, ?_⟩
  · intro k r hmem
    obtain ⟨hk, pre, post, hd, hpre, hpost⟩ :=
      hrep k r ((groupedData_mem_iff_get loc entries k r).mp hmem)
    refine ⟨by rw [hd]; simp, hk, ?_⟩
    intro e he hek
    rw [hd] at he
    rcases List.mem_append.mp he with he | he
    · exact le_of_lt (hpre e he hek)
    · rcases List.mem_cons.mp he with he | he
      · rw [he]
      · exact hpost e he hek
  · intro e1 e2 e3 h12 h31 m1 m2 m3
    have hne : ¬ toLocaleDateString loc e2.date = toLocaleDateString loc e3.date := by
      rw [← h12]; exact fun h => h31 h.symm
    have hgt : e2.metric > e1.metric := by rw [m1, m2]; norm_num
    simp only [groupedData, List.foldl, groupStep, Obj.get, Obj.set, h12, if_true, hgt,
      h12 ▸ h31, hne, if_false]

/-- C7, the counterexample: of two sets of one day with equal metric the
grouping keeps the first, not the later one. -/
theorem groupedData_tie_keeps_first :
    tieFirst.date = tieSecond.date ∧ tieFirst.metric = tieSecond.metric ∧
    tieFirst ≠ tieSecond ∧
    groupedData .enUS [tieFirst, tieSecond] = [("3/1/2024", tieFirst)] ∧
    (groupedData .enUS [tieFirst, tieSecond]).get "3/1/2024" ≠ some tieSecond := by
  have hne : tieFirst ≠ tieSecond := by
    intro h
    have := congrArg Entry.reps h
    simp [tieFirst, tieSecond] at this
  refine ⟨rfl, rfl, hne, groupedData_tie_eval, ?_⟩
  rw [groupedData_tie_eval]
  simp only [Obj.get, if_true, ne_eq, Option.some.injEq]
  exact hne

/-- C7, as amended: the entry kept for a date is the first, in input order,
of the entries of that date with the greatest metric: every entry of the date
before it has a strictly smaller metric, every entry of the date after it a
smaller or equal one. An entry that ties with the one kept does not replace
it. -/
theorem groupedData_first_max_wins (loc : Locale) (entries : List Entry) (k : String)
    (r : Entry) (h : (k, r) ∈ groupedData loc entries) :
    ∃ pre post, entries = pre ++ r :: post ∧
      (∀ e ∈ pre, toLocaleDateString loc e.date = k → e.metric < r.metric) ∧
      (∀ e ∈ post, toLocaleDateString loc e.date = k → e.metric ≤ r.metric) :=
  ((groupInv_groupedData loc entries).2.2 k r
    ((groupedData_mem_iff_get loc entries k r).mp h)).2

theorem groupedData_first_max_wins_witness :
    ("3/1/2024", tieFirst) ∈ groupedData .enUS [tieFirst, tieSecond] ∧
    ∃ pre post, [tieFirst, tieSecond] = pre ++ tieFirst :: post ∧
      (∀ e ∈ pre, toLocaleDateString .enUS e.date = "3/1/2024" → e.metric < tieFirst.metric) ∧
      (∀ e ∈ post, toLocaleDateString .enUS e.date = "3/1/2024" →
        e.metric ≤ tieFirst.metric) :=
  ⟨by rw [groupedData_tie_eval]; simp,
   groupedData_first_max_wins .enUS [tieFirst, tieSecond] "3/1/2024" tieFirst
     (by rw [groupedData_tie_eval]; simp)⟩

/-! ### The sort of the date labels -/

/-- C3, the code at the failing input: in a runtime of locale `enUS` the
sets of the 11th of October and the 10th of November 2024 get the labels
`10/11/2024` and `11/10/2024`; the comparator reads the first as the 10th of
November and the second as the 11th of October, and `sortedDates` puts the
label of the November set before the label of the October set. -/
theorem sortedDates_enUS_out_of_order :
    toLocaleDateString .enUS loggedOct11.date = "10/11/2024" ∧
    toLocaleDateString .enUS loggedNov10.date = "11/10/2024" ∧
    labelDate "10/11/2024" = some (dayNumber 2024 11 10) ∧
    labelDate "11/10/2024" = some (dayNumber 2024 10 11) ∧
    (groupedData .enUS [loggedOct11, loggedNov10]).keys = ["10/11/2024", "11/10/2024"] ∧
    sortedDates (groupedData .enUS [loggedOct11, loggedNov10]) =
      ["11/10/2024", "10/11/2024"] := by
  decide

/-- The example of the sort contract on the code: the comparator reads
`2/1/2024` and `10/1/2024` as the 2nd and the 10th of January 2024, and the
sort puts `2/1/2024` first, where the order of the strings would put it
last. -/
theorem arraySort_two_before_ten :
    labelDate "2/1/2024" = some (dayNumber 2024 1 2) ∧
    labelDate "10/1/2024" = some (dayNumber 2024 1 10) ∧
    arraySort compareLabels ["10/1/2024", "2/1/2024"] = ["2/1/2024", "10/1/2024"] ∧
    arraySort compareLabels ["2/1/2024", "10/1/2024"] = ["2/1/2024", "10/1/2024"] := by
  decide

/-! ### Rounding to a double -/

theorem roundHalfEven_sub_le (x : ℚ) : |x - roundHalfEven x| ≤ 1 / 2 := by
  have h1 := Int.floor_le x
  have h2 := Int.lt_floor_add_one x
  unfold roundHalfEven
  split_ifs with a b c
  · rw [abs_le]; constructor <;> linarith
  · rw [abs_le]; push_cast; constructor <;> linarith
  · rw [abs_le]; constructor <;> linarith
  · rw [abs_le]; push_cast; constructor <;> linarith

theorem roundHalfEven_eq_of_near (x : ℚ) (m : ℤ) (h : |x - m| < 1 / 2) :
    roundHalfEven x = m := by
  have h0 := roundHalfEven_sub_le x
  rw [abs_lt] at h
  rw [abs_le] at h0
  have : |((roundHalfEven x : ℤ) : ℚ) - (m : ℚ)| < 1 := by
    rw [abs_lt]; constructor <;> linarith [h.1, h.2, h0.1, h0.2]
  have h3 : |roundHalfEven x - m| < 1 := by exact_mod_cast this
  have := Int.abs_lt_one_iff.mp h3
  omega

theorem roundHalfEven_intCast (n : ℤ) : roundHalfEven (n : ℚ) = n :=
  roundHalfEven_eq_of_near _ n (by simp)

theorem roundHalfEven_le (x : ℚ) (n : ℤ) (h : x ≤ n) : roundHalfEven x ≤ n := by
  by_contra hc
  have hc1 : n + 1 ≤ roundHalfEven x := by omega
  have hc2 : ((n : ℚ)) + 1 ≤ (roundHalfEven x : ℚ) := by exact_mod_cast hc1
  have h0 := roundHalfEven_sub_le x
  rw [abs_le] at h0
  linarith [h0.1]

theorem le_roundHalfEven (x : ℚ) (n : ℤ) (h : (n : ℚ) ≤ x) : n ≤ roundHalfEven x := by
  by_contra hc
  have hc1 : roundHalfEven x + 1 ≤ n := by omega
  have hc2 : (roundHalfEven x : ℚ) + 1 ≤ (n : ℚ) := by exact_mod_cast hc1
  have h0 := roundHalfEven_sub_le x
  rw [abs_le] at h0
  linarith [h0.2]

theorem two_zpow_pos (e : ℤ) : (0 : ℚ) < 2 ^ e := zpow_pos (by norm_num) e

theorem two_zpow_le {m n : ℤ} (h : m ≤ n) : (2 : ℚ) ^ m ≤ 2 ^ n :=
  zpow_le_zpow_right₀ (by norm_num) h

theorem log_le_self (a : ℚ) (ha : 0 < a) : (2 : ℚ) ^ Int.log 2 a ≤ a := by
  have := Int.zpow_log_le_self (b := 2) (by norm_num) ha
  simpa using this

theorem self_lt_log_succ (a : ℚ) : a < (2 : ℚ) ^ (Int.log 2 a + 1) := by
  have := Int.lt_zpow_succ_log_self (b := 2) (by norm_num) a
  simpa using this

theorem log_lt_of_lt (a : ℚ) (n : ℤ) (ha : 0 < a) (h : a < 2 ^ n) : Int.log 2 a < n := by
  have := (Int.lt_zpow_iff_log_lt (b := 2) (by norm_num) ha (x := n)).mp (by simpa using h)
  exact this

theorem le_log_of_le (a : ℚ) (n : ℤ) (ha : 0 < a) (h : 2 ^ n ≤ a) : n ≤ Int.log 2 a := by
  have := (Int.zpow_le_iff_le_log (b := 2) (by norm_num) ha (x := n)).mp (by simpa using h)
  exact this

theorem log_sub_le_ulpExponent (a : ℚ) : Int.log 2 a - 52 ≤ ulpExponent a := le_max_left _ _

theorem ulpExponent_ge (a : ℚ) : -1074 ≤ ulpExponent a := le_max_right _ _

theorem roundedMagnitude_nonneg (a : ℚ) (ha : 0 ≤ a) : 0 ≤ roundedMagnitude a := by
  unfold roundedMagnitude
  apply mul_nonneg _ (le_of_lt (two_zpow_pos _))
  have : (0 : ℤ) ≤ roundHalfEven (a / 2 ^ ulpExponent a) :=
    le_roundHalfEven _ 0 (by simpa using div_nonneg ha (le_of_lt (two_zpow_pos _)))
  exact_mod_cast this

theorem scaled_lt (a : ℚ) : a / 2 ^ ulpExponent a < 2 ^ (53 : ℤ) := by
  rw [div_lt_iff₀ (two_zpow_pos _), ← zpow_add₀ (by norm_num : (2 : ℚ) ≠ 0)]
  refine lt_of_lt_of_le (self_lt_log_succ a) (two_zpow_le ?_)
  have := log_sub_le_ulpExponent a
  omega

theorem two_zpow_53 : (2 : ℚ) ^ (53 : ℤ) = ((2 ^ 53 : ℤ) : ℚ) := by norm_num

theorem roundedMagnitude_le (a : ℚ) : roundedMagnitude a ≤ 2 ^ (53 + ulpExponent a) := by
  unfold roundedMagnitude
  rw [zpow_add₀ (by norm_num : (2 : ℚ) ≠ 0)]
  apply mul_le_mul_of_nonneg_right _ (le_of_lt (two_zpow_pos _))
  have hs := scaled_lt a
  rw [two_zpow_53] at hs ⊢
  have h : roundHalfEven (a / 2 ^ ulpExponent a) ≤ (2 ^ 53 : ℤ) :=
    roundHalfEven_le _ _ (le_of_lt hs)
  exact_mod_cast h

theorem roundedMagnitude_le_of_lt (a : ℚ) (n : ℤ) (ha : 0 < a) (h : a < 2 ^ n)
    (hn : -1021 ≤ n) : roundedMagnitude a ≤ 2 ^ n := by
  refine le_trans (roundedMagnitude_le a) (two_zpow_le ?_)
  have h1 := log_lt_of_lt a n ha h
  unfold ulpExponent
  rcases max_cases (Int.log 2 a - 52) (-1074) with ⟨he, _⟩ | ⟨he, _⟩ <;> rw [he] <;> omega

theorem le_roundedMagnitude (a : ℚ) (k : ℤ) (hk : -1022 ≤ k) (h : 2 ^ k ≤ a) :
    2 ^ k ≤ roundedMagnitude a := by
  have ha : 0 < a := lt_of_lt_of_le (two_zpow_pos k) h
  have hlog := le_log_of_le a k ha h
  have he : ulpExponent a = Int.log 2 a - 52 := by
    unfold ulpExponent
    exact max_eq_left (by omega)
  have hx : ((2 ^ 52 : ℤ) : ℚ) ≤ a / 2 ^ ulpExponent a := by
    rw [le_div_iff₀ (two_zpow_pos _), he]
    have h52 : ((2 ^ 52 : ℤ) : ℚ) = (2 : ℚ) ^ (52 : ℤ) := by norm_num
    rw [h52, ← zpow_add₀ (by norm_num : (2 : ℚ) ≠ 0)]
    have : (52 : ℤ) + (Int.log 2 a - 52) = Int.log 2 a := by ring
    rw [this]
    exact log_le_self a ha
  have hr : ((2 ^ 52 : ℤ) : ℚ) ≤ (roundHalfEven (a / 2 ^ ulpExponent a) : ℚ) := by
    exact_mod_cast le_roundHalfEven _ _ hx
  calc (2 : ℚ) ^ k ≤ 2 ^ Int.log 2 a := two_zpow_le hlog
    _ = ((2 ^ 52 : ℤ) : ℚ) * 2 ^ ulpExponent a := by
        have h52 : ((2 ^ 52 : ℤ) : ℚ) = (2 : ℚ) ^ (52 : ℤ) := by norm_num
        rw [h52, ← zpow_add₀ (by norm_num : (2 : ℚ) ≠ 0), he]
        congr 1
        ring
    _ ≤ roundedMagnitude a :=
        mul_le_mul_of_nonneg_right hr (le_of_lt (two_zpow_pos _))

theorem roundedMagnitude_exact (m e : ℤ) (hm0 : 0 ≤ m) (hm : m < 2 ^ 53) (he : -1074 ≤ e) :
    roundedMagnitude ((m : ℚ) * 2 ^ e) = (m : ℚ) * 2 ^ e := by
  rcases eq_or_lt_of_le hm0 with h0 | hpos
  · subst h0
    simp [roundedMagnitude, roundHalfEven]
  · have ha : (0 : ℚ) < (m : ℚ) * 2 ^ e :=
      mul_pos (by exact_mod_cast hpos) (two_zpow_pos e)
    have hlt : (m : ℚ) * 2 ^ e < 2 ^ (53 + e) := by
      rw [zpow_add₀ (by norm_num : (2 : ℚ) ≠ 0), two_zpow_53]
      exact mul_lt_mul_of_pos_right (by exact_mod_cast hm) (two_zpow_pos e)
    have hlog := log_lt_of_lt _ _ ha hlt
    have hle : ulpExponent ((m : ℚ) * 2 ^ e) ≤ e := by
      unfold ulpExponent
      exact max_le (by omega) he
    obtain ⟨n, hn⟩ := Int.eq_ofNat_of_zero_le (sub_nonneg.mpr hle)
    have hx : (m : ℚ) * 2 ^ e / 2 ^ ulpExponent ((m : ℚ) * 2 ^ e) = ((m * 2 ^ n : ℤ) : ℚ) := by
      rw [mul_div_assoc, ← zpow_sub₀ (by norm_num : (2 : ℚ) ≠ 0), hn]
      push_cast
      rw [zpow_natCast]
    unfold roundedMagnitude
    rw [hx, roundHalfEven_intCast]
    push_cast
    rw [mul_assoc, ← zpow_natCast, ← hn, ← zpow_add₀ (by norm_num : (2 : ℚ) ≠ 0)]
    congr 2
    ring

theorem roundedMagnitude_eq_of_near (a : ℚ) (k m : ℤ) (hlo : 2 ^ k ≤ a) (hhi : a < 2 ^ (k + 1))
    (hk : -1022 ≤ k) (hm : |a / 2 ^ (k - 52) - m| < 1 / 2) :
    roundedMagnitude a = (m : ℚ) * 2 ^ (k - 52) := by
  have ha : 0 < a := lt_of_lt_of_le (two_zpow_pos k) hlo
  have h1 := le_log_of_le a k ha hlo
  have h2 := log_lt_of_lt a (k + 1) ha hhi
  have hlog : Int.log 2 a = k := by omega
  have he : ulpExponent a = k - 52 := by
    unfold ulpExponent
    rw [hlog]
    exact max_eq_left (by omega)
  unfold roundedMagnitude
  rw [he, roundHalfEven_eq_of_near _ m hm]

theorem roundToDouble_of_lt (q : ℚ) (h : roundedMagnitude |q| < 2 ^ (1024 : ℤ)) :
    roundToDouble q = .fin (if 0 < q then roundedMagnitude |q| else -roundedMagnitude |q|) := by
  unfold roundToDouble
  rw [if_neg (not_le.mpr h)]

theorem roundToDouble_of_isDouble (q : ℚ) (h : IsDouble q) : roundToDouble q = .fin q := by
  obtain ⟨m, e, hm, he1, he2, rfl⟩ := h
  have habs : |(m : ℚ) * 2 ^ e| = ((|m| : ℤ) : ℚ) * 2 ^ e := by
    rw [abs_mul, abs_of_pos (two_zpow_pos e)]
    push_cast
    rfl
  have hrm : roundedMagnitude |(m : ℚ) * 2 ^ e| = ((|m| : ℤ) : ℚ) * 2 ^ e := by
    rw [habs]
    exact roundedMagnitude_exact |m| e (abs_nonneg m) hm he1
  have hlt : roundedMagnitude |(m : ℚ) * 2 ^ e| < 2 ^ (1024 : ℤ) := by
    rw [hrm]
    calc ((|m| : ℤ) : ℚ) * 2 ^ e < ((2 ^ 53 : ℤ) : ℚ) * 2 ^ e :=
          mul_lt_mul_of_pos_right (by exact_mod_cast hm) (two_zpow_pos e)
      _ = 2 ^ (53 + e) := by
          rw [← two_zpow_53, ← zpow_add₀ (by norm_num : (2 : ℚ) ≠ 0)]
      _ ≤ 2 ^ (1024 : ℤ) := two_zpow_le (by omega)
  rw [roundToDouble_of_lt _ hlt, hrm, ← habs]
  congr 1
  split_ifs with hp
  · exact abs_of_pos hp
  · rw [abs_of_nonpos (not_lt.mp hp), neg_neg]

theorem roundToDouble_eq_of_near (q : ℚ) (k m : ℤ) (hlo : 2 ^ k ≤ q) (hhi : q < 2 ^ (k + 1))
    (hk : -1022 ≤ k) (hk2 : k ≤ 1022) (hm : |q / 2 ^ (k - 52) - m| < 1 / 2) :
    roundToDouble q = .fin ((m : ℚ) * 2 ^ (k - 52)) := by
  have hq : 0 < q := lt_of_lt_of_le (two_zpow_pos k) hlo
  have habs : |q| = q := abs_of_pos hq
  have hlt : roundedMagnitude |q| < 2 ^ (1024 : ℤ) := by
    rw [habs]
    refine lt_of_le_of_lt (roundedMagnitude_le_of_lt q (k + 1) hq hhi (by omega)) ?_
    exact zpow_lt_zpow_right₀ (by norm_num) (by omega)
  rw [roundToDouble_of_lt _ hlt, habs, if_pos hq,
    roundedMagnitude_eq_of_near q k m hlo hhi hk hm]

theorem roundedMagnitude_zero : roundedMagnitude 0 = 0 := by
  simp [roundedMagnitude, roundHalfEven]

theorem roundToDouble_ne_nan (q : ℚ) : roundToDouble q ≠ .nan := by
  unfold roundToDouble
  split_ifs <;> exact fun h => JSNum.noConfusion h

theorem roundToDouble_of_nonneg (q : ℚ) (hq : 0 ≤ q) :
    (∃ v, roundToDouble q = .fin v ∧ 0 ≤ v) ∨ roundToDouble q = .posInf := by
  have hrm := roundedMagnitude_nonneg |q| (abs_nonneg q)
  unfold roundToDouble
  by_cases hov : (2 : ℚ) ^ (1024 : ℤ) ≤ roundedMagnitude |q|
  · right
    have hpos : 0 < q := by
      rcases eq_or_lt_of_le hq with h0 | h0
      · rw [← h0, abs_zero, roundedMagnitude_zero] at hov
        exact absurd hov (not_le.mpr (two_zpow_pos _))
      · exact h0
    rw [if_pos hov, if_pos hpos]
  · left
    rw [if_neg hov]
    refine ⟨_, rfl, ?_⟩
    split_ifs with hp
    · exact hrm
    · have h0 : q = 0 := le_antisymm (not_lt.mp hp) hq
      rw [h0, abs_zero, roundedMagnitude_zero, neg_zero]

theorem roundToDouble_of_abs_lt (q : ℚ) (n : ℤ) (h : |q| < 2 ^ n) (hn1 : -1021 ≤ n)
    (hn2 : n ≤ 1023) :
    ∃ v, roundToDouble q = .fin v ∧ |v| ≤ 2 ^ n ∧ (0 ≤ q → 0 ≤ v) ∧ (q ≤ 0 → v ≤ 0) := by
  have hrm0 := roundedMagnitude_nonneg |q| (abs_nonneg q)
  have hrm : roundedMagnitude |q| ≤ 2 ^ n := by
    rcases eq_or_lt_of_le (abs_nonneg q) with h0 | h0
    · rw [← h0, roundedMagnitude_zero]
      exact le_of_lt (two_zpow_pos n)
    · exact roundedMagnitude_le_of_lt |q| n h0 h hn1
  have hlt : roundedMagnitude |q| < 2 ^ (1024 : ℤ) :=
    lt_of_le_of_lt hrm (zpow_lt_zpow_right₀ (by norm_num) (by omega))
  refine ⟨_, roundToDouble_of_lt q hlt, ?_, ?_, ?_⟩
  · split_ifs
    · rw [abs_of_nonneg hrm0]; exact hrm
    · rw [abs_neg, abs_of_nonneg hrm0]; exact hrm
  · intro hq
    split_ifs with hp
    · exact hrm0
    · have h0 : q = 0 := le_antisymm (not_lt.mp hp) hq
      rw [h0, abs_zero, roundedMagnitude_zero, neg_zero]
  · intro hq
    rw [if_neg (not_lt.mpr hq)]
    exact neg_nonpos.mpr hrm0

theorem roundToDouble_of_one_le (q : ℚ) (hq : 1 ≤ q) :
    (∃ v, roundToDouble q = .fin v ∧ 1 ≤ v) ∨ roundToDouble q = .posInf := by
  have hpos : 0 < q := lt_of_lt_of_le one_pos hq
  have hrm : 1 ≤ roundedMagnitude |q| := by
    rw [abs_of_pos hpos]
    have := le_roundedMagnitude q 0 (by norm_num) (by simpa using hq)
    simpa using this
  unfold roundToDouble
  by_cases hov : (2 : ℚ) ^ (1024 : ℤ) ≤ roundedMagnitude |q|
  · right
    rw [if_pos hov, if_pos hpos]
  · left
    rw [if_neg hov, if_pos hpos]
    exact ⟨_, rfl, hrm⟩

/-! ### The summary statistics -/

theorem mathMax_foldl (xs : List ℚ) :
    ∀ a : ℚ, ∃ m, m ∈ a :: xs ∧
      xs.foldl (fun acc x => JSNum.max acc (.fin x)) (.fin a) = .fin m ∧
      ∀ x ∈ a :: xs, x ≤ m := by
  induction xs with
  | nil => intro a; exact ⟨a, by simp, rfl, by simp⟩
  | cons b xs ih =>
    intro a
    by_cases hab : a < b
    · obtain ⟨m, hm, hfold, hub⟩ := ih b
      refine ⟨m, List.mem_cons_of_mem _ hm, ?_, ?_⟩
      · simpa [List.foldl, JSNum.max, hab] using hfold
      · intro x hx
        rcases List.mem_cons.mp hx with hx | hx
        · rw [hx]; exact le_trans (le_of_lt hab) (hub b (by simp))
        · exact hub x hx
    · obtain ⟨m, hm, hfold, hub⟩ := ih a
      refine ⟨m, ?_, ?_, ?_⟩
      · rcases List.mem_cons.mp hm with hm | hm
        · rw [hm]; simp
        · exact List.mem_cons_of_mem _ (List.mem_cons_of_mem _ hm)
      · simpa [List.foldl, JSNum.max, hab] using hfold
      · intro x hx
        rcases List.mem_cons.mp hx with hx | hx
        · rw [hx]; exact hub a (by simp)
        · rcases List.mem_cons.mp hx with hx | hx
          · rw [hx]; exact le_trans (not_lt.mp hab) (hub a (by simp))
          · exact hub x (List.mem_cons_of_mem _ hx)

theorem mathMax_of_ne_nil (xs : List ℚ) (h : xs ≠ []) :
    ∃ m, m ∈ xs ∧ mathMax xs = .fin m ∧ ∀ x ∈ xs, x ≤ m := by
  cases xs with
  | nil => exact absurd rfl h
  | cons a xs =>
    obtain ⟨m, hm, hfold, hub⟩ := mathMax_foldl xs a
    exact ⟨m, hm, by simpa [mathMax, List.foldl, JSNum.max] using hfold, hub⟩

theorem getElem?_length_sub_one (E : List Entry) (h : E ≠ []) :
    E[E.length - 1]? = some (E.getLast h) := by
  rw [List.getLast_eq_getElem, List.getElem?_eq_getElem]

theorem calculateStats_of_ne_nil (E : List Entry) (h : E ≠ []) :
    calculateStats (some E) =
      .ok ⟨some (mathMax (E.map (fun data => data.weight))),
           some (mathMax (E.map (fun data => data.volume))),
           some (est1RM (E.getLast h).weight (E.getLast h).reps)⟩ := by
  have hlen : ¬ E.length = 0 := by
    intro h0; exact h (List.length_eq_zero.mp h0)
  simp only [calculateStats, hlen, if_false, getElem?_length_sub_one E h]

/-- C4: for a non-empty list of entries `calculateStats` returns a result
whose `maxWeight` is the weight of some entry that no entry exceeds, and whose
`maxVolume` is the volume of some entry that no entry exceeds. -/
theorem calculateStats_maxima (E : List Entry) (h : E ≠ []) :
    ∃ s, calculateStats (some E) = .ok s ∧
      (∃ e ∈ E, s.maxWeight = some (.fin e.weight) ∧ ∀ d ∈ E, d.weight ≤ e.weight) ∧
      (∃ e ∈ E, s.maxVolume = some (.fin e.volume) ∧ ∀ d ∈ E, d.volume ≤ e.volume) := by
  refine ⟨_, calculateStats_of_ne_nil E h, ?_, ?_⟩
  · obtain ⟨m, hm, hmax, hub⟩ :=
      mathMax_of_ne_nil (E.map (fun data => data.weight)) (by simpa using h)
    obtain ⟨e, he, rfl⟩ := List.mem_map.mp hm
    exact ⟨e, he, by rw [hmax], fun d hd => hub _ (List.mem_map.mpr ⟨d, hd, rfl⟩)⟩
  · obtain ⟨m, hm, hmax, hub⟩ :=
      mathMax_of_ne_nil (E.map (fun data => data.volume)) (by simpa using h)
    obtain ⟨e, he, rfl⟩ := List.mem_map.mp hm
    exact ⟨e, he, by rw [hmax], fun d hd => hub _ (List.mem_map.mpr ⟨d, hd, rfl⟩)⟩

theorem calculateStats_maxima_witness :
    [loggedNov10, loggedOct11] ≠ [] ∧
    ∃ s, calculateStats (some [loggedNov10, loggedOct11]) = .ok s ∧
      (∃ e ∈ [loggedNov10, loggedOct11], s.maxWeight = some (.fin e.weight) ∧
        ∀ d ∈ [loggedNov10, loggedOct11], d.weight ≤ e.weight) ∧
      (∃ e ∈ [loggedNov10, loggedOct11], s.maxVolume = some (.fin e.volume) ∧
        ∀ d ∈ [loggedNov10, loggedOct11], d.volume ≤ e.volume) :=
  ⟨by simp, calculateStats_maxima [loggedNov10, loggedOct11] (by simp)⟩

theorem isDouble_intCast (n : ℤ) (h : |n| < 2 ^ 53) : IsDouble (n : ℚ) :=
  ⟨n, 0, h, by norm_num, by norm_num, by simp⟩

/-- Where the difference, the quotient and the product are doubles as they
stand, no operation rounds and the estimate is the one of the formula
`weight × 36 / (37 − reps)`. -/
theorem est1RM_of_exact (weight : ℚ) (reps : ℤ) (hr : reps ≠ 37)
    (h1 : IsDouble (37 - (reps : ℚ))) (h2 : IsDouble (36 / (37 - (reps : ℚ))))
    (h3 : IsDouble (weight * (36 / (37 - (reps : ℚ))))) :
    est1RM weight reps = .fin (⌊weight * 36 / (37 - (reps : ℚ)) + 1 / 2⌋ : ℤ) := by
  have hd : ¬ (37 - (reps : ℚ)) = 0 := by
    intro h0
    apply hr
    have : ((reps : ℚ)) = ((37 : ℤ) : ℚ) := by push_cast; linarith
    exact_mod_cast this
  simp only [est1RM, JSNum.toDouble, roundToDouble_of_isDouble _ h1, JSNum.div, hd, if_false,
    roundToDouble_of_isDouble _ h2, JSNum.mul, roundToDouble_of_isDouble _ h3, JSNum.round,
    mul_div_assoc]

theorem est1RM_100_5 : est1RM 100 5 = .fin 113 := by
  rw [est1RM_of_exact 100 5 (by decide)
    ⟨32, 0, by norm_num, by norm_num, by norm_num, by norm_num⟩
    ⟨9, -3, by norm_num, by norm_num, by norm_num, by norm_num⟩
    ⟨225, -1, by norm_num, by norm_num, by norm_num, by norm_num⟩]
  norm_num

/-- The estimate for 13.125 kg and 2 repetitions: the quotient `36 / 35`
rounds down to a double, the product with 13.125 rounds to the double just
below 13.5, and `Math.round` gives 13. -/
theorem est1RM_eighths : est1RM (105 / 8) 2 = .fin 13 := by
  have h1 : roundToDouble (37 - ((2 : ℤ) : ℚ)) = .fin 35 := by
    rw [roundToDouble_of_isDouble _ ⟨35, 0, by norm_num, by norm_num, by norm_num, by norm_num⟩]
    norm_num
  have h2 : roundToDouble (36 / 35) = .fin (289517118902389 / 281474976710656) := by
    rw [roundToDouble_eq_of_near (36 / 35) 0 4632273902438224 (by norm_num) (by norm_num)
      (by norm_num) (by norm_num) (by rw [abs_lt]; constructor <;> norm_num)]
    norm_num
  have h3 : roundToDouble (105 / 8 * (289517118902389 / 281474976710656)) =
      .fin (7599824371187711 / 562949953421312) := by
    rw [roundToDouble_eq_of_near _ 3 7599824371187711 (by norm_num) (by norm_num)
      (by norm_num) (by norm_num) (by rw [abs_lt]; constructor <;> norm_num)]
    norm_num
  have h35 : ¬ ((35 : ℚ) = 0) := by norm_num
  simp only [est1RM, JSNum.toDouble, h1, JSNum.div, h35, if_false, h2, JSNum.mul, h3,
    JSNum.round]
  congr 1
  have : (⌊(7599824371187711 / 562949953421312 : ℚ) + 1 / 2⌋ : ℤ) = 13 := by
    rw [Int.floor_eq_iff]
    constructor <;> norm_num
  exact_mod_cast this

theorem roundedMagnitude_sub_le (a : ℚ) :
    |roundedMagnitude a - a| ≤ 2 ^ (ulpExponent a - 1) := by
  have hx := roundHalfEven_sub_le (a / 2 ^ ulpExponent a)
  have hpos := two_zpow_pos (ulpExponent a)
  have hd : roundedMagnitude a - a =
      -(a / 2 ^ ulpExponent a - roundHalfEven (a / 2 ^ ulpExponent a)) *
        2 ^ ulpExponent a := by
    unfold roundedMagnitude
    rw [neg_mul, sub_mul, div_mul_cancel₀ _ (ne_of_gt hpos)]
    ring
  rw [hd, abs_mul, abs_neg, abs_of_pos hpos, zpow_sub₀ (by norm_num : (2 : ℚ) ≠ 0)]
  have : |a / 2 ^ ulpExponent a - roundHalfEven (a / 2 ^ ulpExponent a)| * 2 ^ ulpExponent a
      ≤ 1 / 2 * 2 ^ ulpExponent a := mul_le_mul_of_nonneg_right hx (le_of_lt hpos)
  calc _ ≤ 1 / 2 * 2 ^ ulpExponent a := this
    _ = 2 ^ ulpExponent a / 2 ^ (1 : ℤ) := by norm_num; ring

theorem roundedMagnitude_sub_le_rel (a : ℚ) (ha : 0 ≤ a) :
    |roundedMagnitude a - a| ≤ a * 2 ^ (-53 : ℤ) + 2 ^ (-1075 : ℤ) := by
  rcases eq_or_lt_of_le ha with h0 | hpos
  · rw [← h0, roundedMagnitude_zero]
    simp only [sub_zero, abs_zero, zero_mul, zero_add]
    exact le_of_lt (two_zpow_pos _)
  · refine le_trans (roundedMagnitude_sub_le a) ?_
    unfold ulpExponent
    rcases max_cases (Int.log 2 a - 52) (-1074) with ⟨he, _⟩ | ⟨he, _⟩
    · rw [he]
      have h1 : (2 : ℚ) ^ (Int.log 2 a - 52 - 1) = 2 ^ Int.log 2 a * 2 ^ (-53 : ℤ) := by
        rw [← zpow_add₀ (by norm_num : (2 : ℚ) ≠ 0)]
        congr 1
        ring
      rw [h1]
      have h2 : (2 : ℚ) ^ Int.log 2 a * 2 ^ (-53 : ℤ) ≤ a * 2 ^ (-53 : ℤ) :=
        mul_le_mul_of_nonneg_right (log_le_self a hpos) (le_of_lt (two_zpow_pos _))
      linarith [two_zpow_pos (-1075)]
    · rw [he]
      have h1 : (2 : ℚ) ^ ((-1074 : ℤ) - 1) = 2 ^ (-1075 : ℤ) := by norm_num
      rw [h1]
      have : 0 ≤ a * 2 ^ (-53 : ℤ) := mul_nonneg ha (le_of_lt (two_zpow_pos _))
      linarith

theorem roundToDouble_near (q : ℚ) (n : ℤ) (hq : 0 ≤ q) (h : q < 2 ^ n) (hn1 : -1021 ≤ n)
    (hn2 : n ≤ 1023) :
    ∃ v, roundToDouble q = .fin v ∧ 0 ≤ v ∧
      |v - q| ≤ q * 2 ^ (-53 : ℤ) + 2 ^ (-1075 : ℤ) := by
  have habs : |q| = q := abs_of_nonneg hq
  have hrm : roundedMagnitude q ≤ 2 ^ n := by
    rcases eq_or_lt_of_le hq with h0 | h0
    · rw [← h0, roundedMagnitude_zero]
      exact le_of_lt (two_zpow_pos n)
    · exact roundedMagnitude_le_of_lt q n h0 h hn1
  have hlt : roundedMagnitude |q| < 2 ^ (1024 : ℤ) := by
    rw [habs]
    exact lt_of_le_of_lt hrm (zpow_lt_zpow_right₀ (by norm_num) (by omega))
  refine ⟨roundedMagnitude q, ?_, roundedMagnitude_nonneg q hq, roundedMagnitude_sub_le_rel q hq⟩
  rw [roundToDouble_of_lt q hlt, habs]
  congr 1
  split_ifs with hp
  · rfl
  · have h0 : q = 0 := le_antisymm (not_lt.mp hp) hq
    rw [h0, roundedMagnitude_zero, neg_zero]

theorem floor_sub_floor_le (a b : ℚ) (h : |a - b| < 1) : |⌊a⌋ - ⌊b⌋| ≤ 1 := by
  rw [abs_lt] at h
  have h1 : ⌊a⌋ ≤ ⌊b + 1⌋ := Int.floor_le_floor (by linarith)
  have h2 : ⌊b⌋ ≤ ⌊a + 1⌋ := Int.floor_le_floor (by linarith)
  rw [Int.floor_add_one] at h1 h2
  rw [abs_le]
  constructor <;> omega

/-- For a count of repetitions from 0 to 36 and a weight that is not negative,
with `weight × 36 / (37 − reps)` up to `2 ^ 50`, the estimate in doubles is an
integer at most one away from round(weight × 36 / (37 − reps)). -/
theorem est1RM_near_formula (weight : ℚ) (reps : ℤ) (hr0 : 0 ≤ reps) (hr : reps < 37)
    (hw : 0 ≤ weight) (hb : weight * 36 / (37 - (reps : ℚ)) ≤ 2 ^ 50) :
    ∃ k : ℤ, est1RM weight reps = .fin k ∧
      |k - ⌊weight * 36 / (37 - (reps : ℚ)) + 1 / 2⌋| ≤ 1 := by
  have hr0q : (0 : ℚ) ≤ reps := by exact_mod_cast hr0
  have hrq : (reps : ℚ) ≤ 36 := by exact_mod_cast (by omega : reps ≤ 36)
  have hd1 : (1 : ℚ) ≤ 37 - (reps : ℚ) := by linarith
  have hd37 : 37 - (reps : ℚ) ≤ 37 := by linarith
  have hdpos : (0 : ℚ) < 37 - (reps : ℚ) := by linarith
  have hdne : ¬ (37 - (reps : ℚ)) = 0 := ne_of_gt hdpos
  -- the difference is exact
  have hdd : roundToDouble (37 - (reps : ℚ)) = .fin (37 - (reps : ℚ)) := by
    apply roundToDouble_of_isDouble
    have : IsDouble ((37 - reps : ℤ) : ℚ) :=
      isDouble_intCast (37 - reps) (by rw [abs_lt]; constructor <;> omega)
    simpa using this
  -- the quotient
  have hQpos : 0 < 36 / (37 - (reps : ℚ)) := div_pos (by norm_num) hdpos
  have hQle : 36 / (37 - (reps : ℚ)) ≤ 36 := by
    rw [div_le_iff₀ hdpos]; nlinarith
  obtain ⟨Q, hQ, hQ0, hQe⟩ := roundToDouble_near (36 / (37 - (reps : ℚ))) 6 (le_of_lt hQpos)
    (by norm_num; linarith) (by norm_num) (by norm_num)
  -- the product
  have hwQ : weight * (36 / (37 - (reps : ℚ))) ≤ 2 ^ 50 := by
    rw [← mul_div_assoc]; exact hb
  have hwQ0 : 0 ≤ weight * (36 / (37 - (reps : ℚ))) := mul_nonneg hw (le_of_lt hQpos)
  have h53 : (2 : ℚ) ^ (-53 : ℤ) = 1 / 2 ^ 53 := by
    rw [zpow_neg, one_div]; norm_num
  have hsmall : (2 : ℚ) ^ (-1075 : ℤ) ≤ 2 ^ (-53 : ℤ) := two_zpow_le (by norm_num)
  have hQd : |weight * Q - weight * (36 / (37 - (reps : ℚ)))| ≤
      weight * (36 / (37 - (reps : ℚ))) * 2 ^ (-53 : ℤ) + weight * 2 ^ (-1075 : ℤ) := by
    rw [← mul_sub, abs_mul, abs_of_nonneg hw]
    calc weight * |Q - 36 / (37 - (reps : ℚ))|
        ≤ weight * (36 / (37 - (reps : ℚ)) * 2 ^ (-53 : ℤ) + 2 ^ (-1075 : ℤ)) :=
          mul_le_mul_of_nonneg_left hQe hw
      _ = _ := by ring
  -- the weight is at most 37/36 × 2^50
  have hwle : weight ≤ 2 ^ 51 := by
    have h1 : weight * 36 ≤ 2 ^ 50 * (37 - (reps : ℚ)) := by
      rw [div_le_iff₀ hdpos] at hb; exact hb
    nlinarith
  have hP0 : 0 ≤ weight * Q := mul_nonneg hw hQ0
  have hPle : weight * Q ≤ 2 ^ 50 + 1 := by
    have := (abs_le.mp hQd).2
    have e1 : weight * (36 / (37 - (reps : ℚ))) * 2 ^ (-53 : ℤ) ≤ 2 ^ 50 * 2 ^ (-53 : ℤ) :=
      mul_le_mul_of_nonneg_right hwQ (le_of_lt (two_zpow_pos _))
    have e2 : weight * 2 ^ (-1075 : ℤ) ≤ 2 ^ 51 * 2 ^ (-53 : ℤ) :=
      mul_le_mul hwle hsmall (le_of_lt (two_zpow_pos _)) (by positivity)
    rw [h53] at e1 e2
    norm_num at e1 e2
    linarith
  obtain ⟨P, hP, _, hPe⟩ := roundToDouble_near (weight * Q) 51 hP0
    (by norm_num; linarith) (by norm_num) (by norm_num)
  have he : est1RM weight reps = .fin (⌊P + 1 / 2⌋ : ℤ) := by
    simp only [est1RM, JSNum.toDouble, hdd, JSNum.div, hdne, if_false, hQ, JSNum.mul, hP,
      JSNum.round]
  refine ⟨⌊P + 1 / 2⌋, he, ?_⟩
  apply floor_sub_floor_le
  rw [← mul_div_assoc] at hwQ hwQ0 hQd
  have hsum : |P - weight * 36 / (37 - (reps : ℚ))| ≤
      (weight * Q * 2 ^ (-53 : ℤ) + 2 ^ (-1075 : ℤ)) +
      (weight * 36 / (37 - (reps : ℚ)) * 2 ^ (-53 : ℤ) + weight * 2 ^ (-1075 : ℤ)) := by
    have : P - weight * 36 / (37 - (reps : ℚ)) =
        (P - weight * Q) + (weight * Q - weight * 36 / (37 - (reps : ℚ))) := by ring
    rw [this]
    exact le_trans (abs_add _ _) (add_le_add hPe hQd)
  have e1 : weight * 36 / (37 - (reps : ℚ)) * 2 ^ (-53 : ℤ) ≤ 2 ^ 50 * 2 ^ (-53 : ℤ) :=
    mul_le_mul_of_nonneg_right hwQ (le_of_lt (two_zpow_pos _))
  have e2 : weight * 2 ^ (-1075 : ℤ) ≤ 2 ^ 51 * 2 ^ (-53 : ℤ) :=
    mul_le_mul hwle hsmall (le_of_lt (two_zpow_pos _)) (by positivity)
  have e3 : weight * Q * 2 ^ (-53 : ℤ) ≤ (2 ^ 50 + 1) * 2 ^ (-53 : ℤ) :=
    mul_le_mul_of_nonneg_right hPle (le_of_lt (two_zpow_pos _))
  rw [h53] at e1 e2 e3 hsmall
  norm_num at e1 e2 e3 hsmall
  have hlt : |P - weight * 36 / (37 - (reps : ℚ))| < 1 := by
    refine lt_of_le_of_lt hsum ?_
    rw [h53]
    linarith
  have : P + 1 / 2 - (weight * 36 / (37 - (reps : ℚ)) + 1 / 2) =
      P - weight * 36 / (37 - (reps : ℚ)) := by ring
  rw [this]
  exact hlt

/-- C5, the counterexample: for a list of one set of 13.125 kg for 2
repetitions `calculateStats` returns the estimate 13, where
round(weight × 36 / (37 − reps)) = round(13.5) is 14. -/
theorem calculateStats_estimated1RM_rounds_down :
    loggedEighths.weight = 105 / 8 ∧ loggedEighths.reps = 2 ∧
    (∃ s, calculateStats (some [loggedEighths]) = .ok s ∧
      s.estimated1RM = some (.fin 13)) ∧
    loggedEighths.weight * 36 / (37 - (loggedEighths.reps : ℚ)) = 27 / 2 ∧
    (⌊loggedEighths.weight * 36 / (37 - (loggedEighths.reps : ℚ)) + 1 / 2⌋ : ℤ) = 14 := by
  refine ⟨rfl, rfl, ⟨_, calculateStats_of_ne_nil [loggedEighths] (by simp), ?_⟩, ?_, ?_⟩
  · show some (est1RM (105 / 8) 2) = some (.fin 13)
    rw [est1RM_eighths]
  · simp only [loggedEighths]
    norm_num
  · simp only [loggedEighths]
    rw [Int.floor_eq_iff]
    constructor <;> norm_num

/-- C5, as amended: for a non-empty list of entries `calculateStats` returns
a result whose `estimated1RM` is `Math.round(weight * (36 / (37 - reps)))`
evaluated in doubles, the difference, the quotient and the product each
rounded to the nearest double, with weight and reps of the last element of
the list, whatever its date. Where the difference, the quotient and the
product are doubles as they stand this is round(weight × 36 / (37 − reps)),
and for weight 100 and reps 5 it is 113; for reps from 0 to 36 and a weight
that is not negative, with weight × 36 / (37 − reps) up to 2 ^ 50, it is an
integer at most one away from round(weight × 36 / (37 − reps)). -/
theorem calculateStats_estimated1RM (E : List Entry) (h : E ≠ []) :
    ∃ s, calculateStats (some E) = .ok s ∧
      s.estimated1RM = some (JSNum.round (JSNum.toDouble (JSNum.mul
        (.fin (E.getLast h).weight)
        (JSNum.toDouble (JSNum.div (.fin 36)
          (JSNum.toDouble (.fin (37 - ((E.getLast h).reps : ℚ))))))))) ∧
      ((E.getLast h).reps ≠ 37 →
        IsDouble (37 - ((E.getLast h).reps : ℚ)) →
        IsDouble (36 / (37 - ((E.getLast h).reps : ℚ))) →
        IsDouble ((E.getLast h).weight * (36 / (37 - ((E.getLast h).reps : ℚ)))) →
        s.estimated1RM = some (.fin
          (⌊(E.getLast h).weight * 36 / (37 - ((E.getLast h).reps : ℚ)) + 1 / 2⌋ : ℤ))) ∧
      ((E.getLast h).weight = 100 → (E.getLast h).reps = 5 →
        s.estimated1RM = some (.fin 113)) ∧
      (0 ≤ (E.getLast h).reps → (E.getLast h).reps < 37 → 0 ≤ (E.getLast h).weight →
        (E.getLast h).weight * 36 / (37 - ((E.getLast h).reps : ℚ)) ≤ 2 ^ 50 →
        ∃ k : ℤ, s.estimated1RM = some (.fin k) ∧
          |k - ⌊(E.getLast h).weight * 36 / (37 - ((E.getLast h).reps : ℚ)) + 1 / 2⌋| ≤
            1) := by
  refine ⟨_, calculateStats_of_ne_nil E h, rfl, ?_, ?_, ?_⟩
  · intro hr h1 h2 h3
    simp only [est1RM_of_exact _ _ hr h1 h2 h3]
  · intro hw hr
    simp only [hw, hr, est1RM_100_5]
  · intro hr0 hr hw hb
    obtain ⟨k, hk, hk1⟩ := est1RM_near_formula _ _ hr0 hr hw hb
    exact ⟨k, congrArg some hk, hk1⟩

theorem calculateStats_estimated1RM_witness :
    [loggedNov10, loggedOct11] ≠ [] ∧
    ∃ s, calculateStats (some [loggedNov10, loggedOct11]) = .ok s ∧
      s.estimated1RM = some (JSNum.round (JSNum.toDouble (JSNum.mul
        (.fin loggedOct11.weight)
        (JSNum.toDouble (JSNum.div (.fin 36)
          (JSNum.toDouble (.fin (37 - (loggedOct11.reps : ℚ))))))))) ∧
      (loggedOct11.reps ≠ 37 →
        IsDouble (37 - (loggedOct11.reps : ℚ)) →
        IsDouble (36 / (37 - (loggedOct11.reps : ℚ))) →
        IsDouble (loggedOct11.weight * (36 / (37 - (loggedOct11.reps : ℚ)))) →
        s.estimated1RM = some (.fin
          (⌊loggedOct11.weight * 36 / (37 - (loggedOct11.reps : ℚ)) + 1 / 2⌋ : ℤ))) ∧
      (loggedOct11.weight = 100 → loggedOct11.reps = 5 →
        s.estimated1RM = some (.fin 113)) ∧
      (0 ≤ loggedOct11.reps → loggedOct11.reps < 37 → 0 ≤ loggedOct11.weight →
        loggedOct11.weight * 36 / (37 - (loggedOct11.reps : ℚ)) ≤ 2 ^ 50 →
        ∃ k : ℤ, s.estimated1RM = some (.fin k) ∧
          |k - ⌊loggedOct11.weight * 36 / (37 - (loggedOct11.reps : ℚ)) + 1 / 2⌋| ≤ 1) :=
  ⟨by simp, calculateStats_estimated1RM [loggedNov10, loggedOct11] (by simp)⟩

/-- C8: `calculateStats` returns the empty object, with none of `maxWeight`,
`maxVolume` and `estimated1RM`, for the empty list and for an absent
argument; it returns before the maxima and the formula, so it does not throw
on the missing last element, and the three properties are present exactly
when the list is non-empty. -/
theorem calculateStats_empty :
    calculateStats none = .ok Stats.empty ∧
    calculateStats (some []) = .ok Stats.empty ∧
    Stats.empty.maxWeight = none ∧ Stats.empty.maxVolume = none ∧
    Stats.empty.estimated1RM = none ∧
    (∀ x, ∃ s, calculateStats x = .ok s ∧
      ((x = none ∨ x = some []) ↔ s = Stats.empty) ∧
      ((x = none ∨ x = some []) ↔
        s.maxWeight = none ∧ s.maxVolume = none ∧ s.estimated1RM = none)) := by
  refine ⟨rfl, rfl, rfl, rfl, rfl, ?_⟩
  intro x
  cases x with
  | none => exact ⟨_, rfl, by simp, by simp [Stats.empty]⟩
  | some E =>
    by_cases h : E = []
    · subst h
      exact ⟨_, rfl, by simp, by simp [Stats.empty]⟩
    · exact ⟨_, calculateStats_of_ne_nil E h, by simp [h, Stats.empty], by simp [h]⟩

/-! ### The chart data -/

theorem sortInsert_perm {α : Type} (cmp : α → α → Option Int) (a : α) (l : List α) :
    (sortInsert cmp a l).Perm (a :: l) := by
  induction l with
  | nil => exact List.Perm.refl _
  | cons b l ih =>
    unfold sortInsert
    by_cases h : (cmp a b).getD 0 ≤ 0
    · rw [if_pos h]
    · rw [if_neg h]
      exact (List.Perm.cons b ih).trans (List.Perm.swap a b l)

theorem arraySort_perm {α : Type} (cmp : α → α → Option Int) (l : List α) :
    (arraySort cmp l).Perm l := by
  induction l with
  | nil => exact List.Perm.refl _
  | cons a l ih =>
    exact (sortInsert_perm cmp a _).trans (List.Perm.cons a ih)

theorem sortedDates_perm (groupedData : Obj Entry) :
    (sortedDates groupedData).Perm groupedData.keys :=
  arraySort_perm compareLabels _

theorem mapExcept_ok {α β : Type} (f : α → Except String β) (l : List α)
    (h : ∀ a ∈ l, ∃ b, f a = .ok b) :
    ∃ bs, mapExcept f l = .ok bs ∧ List.Forall₂ (fun a b => f a = .ok b) l bs := by
  induction l with
  | nil => exact ⟨[], rfl, List.Forall₂.nil⟩
  | cons a l ih =>
    obtain ⟨b, hb⟩ := h a (by simp)
    obtain ⟨bs, hbs, hall⟩ := ih (fun x hx => h x (List.mem_cons_of_mem _ hx))
    refine ⟨b :: bs, ?_, List.Forall₂.cons hb hall⟩
    simp only [mapExcept, hb, hbs]

theorem forall₂_getElem? {α β : Type} (R : α → β → Prop) (l : List α) (bs : List β)
    (h : List.Forall₂ R l bs) (i : Nat) (hi : i < l.length) :
    ∃ b, bs[i]? = some b ∧ R (l.get ⟨i, hi⟩) b := by
  induction h generalizing i with
  | nil => simp at hi
  | cons hab _ ih =>
    cases i with
    | zero => exact ⟨_, by simp, hab⟩
    | succ i =>
      obtain ⟨b, hb, hr⟩ := ih i (by simpa using hi)
      exact ⟨b, by simpa using hb, by simpa using hr⟩

/-- For a non-empty list of entries `renderGraph` returns the chart, with
the sorted labels and, index by index, the metric and the estimate of the
entry kept for the label. -/
theorem renderGraph_line (loc : Locale) (exerciseData : Obj (Option (List Entry)))
    (exerciseName : String) (entries : List Entry)
    (hget : exerciseData.get exerciseName = some (some entries)) (hne : entries ≠ []) :
    ∃ data, renderGraph loc exerciseData exerciseName = .ok (.line data) ∧
      data.labels = sortedDates (groupedData loc entries) ∧
      data.labels.Perm (groupedData loc entries).keys ∧
      data.metricSeries.length = data.labels.length ∧
      data.est1RMSeries.length = data.labels.length ∧
      ∀ (i : Nat) (hi : i < data.labels.length),
        ∃ rep, (groupedData loc entries).get (data.labels.get ⟨i, hi⟩) = some rep ∧
          data.metricSeries[i]? = some rep.metric ∧
          data.est1RMSeries[i]? = some (est1RM rep.weight rep.reps) := by
  have hlen : ¬ entries.length = 0 := fun h0 => hne (List.length_eq_zero.mp h0)
  have hperm := sortedDates_perm (groupedData loc entries)
  have hsome : ∀ date ∈ sortedDates (groupedData loc entries),
      ∃ e, (groupedData loc entries).get date = some e := by
    intro date hd
    have hk : date ∈ (groupedData loc entries).keys := hperm.mem_iff.mp hd
    cases hg : (groupedData loc entries).get date with
    | none => exact absurd hk ((Obj.get_eq_none_iff _ _).mp hg)
    | some e => exact ⟨e, rfl⟩
  obtain ⟨ms, hms, hmall⟩ := mapExcept_ok (metricAt (groupedData loc entries))
    (sortedDates (groupedData loc entries))
    (by
      intro date hd
      obtain ⟨e, he⟩ := hsome date hd
      exact ⟨e.metric, by simp only [metricAt, he]⟩)
  obtain ⟨rs, hrs, hrall⟩ := mapExcept_ok (est1RMAt (groupedData loc entries))
    (sortedDates (groupedData loc entries))
    (by
      intro date hd
      obtain ⟨e, he⟩ := hsome date hd
      exact ⟨est1RM e.weight e.reps, by simp only [est1RMAt, he]⟩)
  refine ⟨⟨sortedDates (groupedData loc entries), ms, rs⟩, ?_, rfl, hperm,
    hmall.length_eq.symm, hrall.length_eq.symm, ?_⟩
  · simp only [renderGraph, hget, Option.join, Option.bind, id, hlen, if_false, hms, hrs]
  · intro i hi
    obtain ⟨e, he⟩ := hsome _ (List.get_mem _ i hi)
    obtain ⟨m, hm, hmr⟩ := forall₂_getElem? _ _ _ hmall i hi
    obtain ⟨r, hr, hrr⟩ := forall₂_getElem? _ _ _ hrall i hi
    simp only [metricAt, est1RMAt, he, Except.ok.injEq] at hmr hrr
    exact ⟨e, he, by rw [hm, hmr], by rw [hr, ← hrr]⟩

/-- C6, the counterexample: for one set of 13.125 kg for 2 repetitions the
chart has one label, the metric 26.25 in the first series and the estimate 13
in the second, where round(weight × 36 / (37 − reps)) = round(13.5) is 14. -/
theorem renderGraph_estimate_rounds_down :
    renderGraph .enGB [("Deadlift", some [loggedEighths])] "Deadlift" =
      .ok (.line ⟨["11/10/2024"], [105 / 4], [.fin 13]⟩) ∧
    (groupedData .enGB [loggedEighths]).get "11/10/2024" = some loggedEighths ∧
    (⌊loggedEighths.weight * 36 / (37 - (loggedEighths.reps : ℚ)) + 1 / 2⌋ : ℤ) = 14 := by
  have hk : toLocaleDateString .enGB loggedEighths.date = "11/10/2024" := by decide
  have hg : groupedData .enGB [loggedEighths] = [("11/10/2024", loggedEighths)] := by
    simp only [groupedData, List.foldl, groupStep, hk, Obj.get, Obj.set]
  have hs : sortedDates [("11/10/2024", loggedEighths)] = ["11/10/2024"] := by
    simp only [sortedDates, Obj.keys, List.map, arraySort, List.foldr, sortInsert]
  have he : est1RM loggedEighths.weight loggedEighths.reps = .fin 13 := est1RM_eighths
  refine ⟨?_, ?_, ?_⟩
  · simp only [renderGraph, Obj.get, if_true, Option.join, Option.bind, id, List.length_singleton,
      one_ne_zero, if_false, hg, hs, mapExcept, metricAt, est1RMAt, he]
    rfl
  · rw [hg]
    simp only [Obj.get, if_true]
  · simp only [loggedEighths]
    rw [Int.floor_eq_iff]
    constructor <;> norm_num

/-- C6, as amended: for a non-empty list of entries `renderGraph` returns the
chart, and its data are the sorted date labels, which are the date labels of
the grouped entries in some order, and two series as long as the labels; at
every index the first series has the metric of the entry kept for the label
at that index, the second `Math.round(weight * (36 / (37 - reps)))` of that
same entry evaluated in doubles, the difference, the quotient and the product
each rounded to the nearest double; for reps from 0 to 36 and a weight that
is not negative, with weight × 36 / (37 − reps) up to 2 ^ 50, that is an
integer at most one away from round(weight × 36 / (37 − reps)). -/
theorem renderGraph_chart (loc : Locale) (exerciseData : Obj (Option (List Entry)))
    (exerciseName : String) (entries : List Entry)
    (hget : exerciseData.get exerciseName = some (some entries)) (hne : entries ≠ []) :
    ∃ data, renderGraph loc exerciseData exerciseName = .ok (.line data) ∧
      data.labels = sortedDates (groupedData loc entries) ∧
      data.labels.Perm (groupedData loc entries).keys ∧
      data.metricSeries.length = data.labels.length ∧
      data.est1RMSeries.length = data.labels.length ∧
      ∀ (i : Nat) (hi : i < data.labels.length),
        ∃ rep, (groupedData loc entries).get (data.labels.get ⟨i, hi⟩) = some rep ∧
          data.metricSeries[i]? = some rep.metric ∧
          data.est1RMSeries[i]? = some (JSNum.round (JSNum.toDouble (JSNum.mul
            (.fin rep.weight)
            (JSNum.toDouble (JSNum.div (.fin 36)
              (JSNum.toDouble (.fin (37 - (rep.reps : ℚ))))))))) ∧
          (0 ≤ rep.reps → rep.reps < 37 → 0 ≤ rep.weight →
            rep.weight * 36 / (37 - (rep.reps : ℚ)) ≤ 2 ^ 50 →
            ∃ k : ℤ, data.est1RMSeries[i]? = some (.fin k) ∧
              |k - ⌊rep.weight * 36 / (37 - (rep.reps : ℚ)) + 1 / 2⌋| ≤ 1) := by
  obtain ⟨data, hdata, hlab, hperm, hlen1, hlen2, hall⟩ :=
    renderGraph_line loc exerciseData exerciseName entries hget hne
  refine ⟨data, hdata, hlab, hperm, hlen1, hlen2, ?_⟩
  intro i hi
  obtain ⟨rep, hrep, hmet, hest⟩ := hall i hi
  refine ⟨rep, hrep, hmet, hest, ?_⟩
  intro hr0 hr hw hb
  obtain ⟨k, hk, hk1⟩ := est1RM_near_formula _ _ hr0 hr hw hb
  exact ⟨k, by rw [hest, hk], hk1⟩

theorem renderGraph_chart_witness :
    deadliftData.get "Deadlift" = some (some [loggedOct11, loggedNov10]) ∧
    [loggedOct11, loggedNov10] ≠ [] ∧
    ∃ data, renderGraph .enGB deadliftData "Deadlift" = .ok (.line data) ∧
      data.labels = sortedDates (groupedData .enGB [loggedOct11, loggedNov10]) ∧
      data.labels.Perm (groupedData .enGB [loggedOct11, loggedNov10]).keys ∧
      data.metricSeries.length = data.labels.length ∧
      data.est1RMSeries.length = data.labels.length ∧
      ∀ (i : Nat) (hi : i < data.labels.length),
        ∃ rep, (groupedData .enGB [loggedOct11, loggedNov10]).get
            (data.labels.get ⟨i, hi⟩) = some rep ∧
          data.metricSeries[i]? = some rep.metric ∧
          data.est1RMSeries[i]? = some (JSNum.round (JSNum.toDouble (JSNum.mul
            (.fin rep.weight)
            (JSNum.toDouble (JSNum.div (.fin 36)
              (JSNum.toDouble (.fin (37 - (rep.reps : ℚ))))))))) ∧
          (0 ≤ rep.reps → rep.reps < 37 → 0 ≤ rep.weight →
            rep.weight * 36 / (37 - (rep.reps : ℚ)) ≤ 2 ^ 50 →
            ∃ k : ℤ, data.est1RMSeries[i]? = some (.fin k) ∧
              |k - ⌊rep.weight * 36 / (37 - (rep.reps : ℚ)) + 1 / 2⌋| ≤ 1) :=
  ⟨rfl, by simp,
   renderGraph_chart .enGB deadliftData "Deadlift" [loggedOct11, loggedNov10] rfl (by simp)⟩

/-! ### Names the catalog does not know, and names already tracked -/

theorem getExerciseDocByName_of_no_match (remote : Remote) (name : String)
    (h : remote.exercisesByName name = .ok []) :
    getExerciseDocByName remote name = .ok none := by
  simp [getExerciseDocByName, h]

theorem getExerciseData_of_no_match (remote : Remote) (stats : List Entry) (name : String)
    (h : remote.exercisesByName name = .ok []) :
    getExerciseData remote stats name = .ok none := by
  simp [getExerciseData, getExerciseDocByName_of_no_match remote name h]

theorem renderGraph_of_undefined (loc : Locale) (exerciseData : Obj (Option (List Entry)))
    (name : String) (h : exerciseData.get name = some none) :
    renderGraph loc exerciseData name = .ok (.noData name) := by
  simp [renderGraph, h]

theorem get_foldl_set {α : Type} (k : String) (v : α) (l : List (String × α)) :
    ∀ acc : Obj α, (∀ p ∈ l, p.1 = k → p.2 = v) →
      (acc.get k = some v ∨ ∃ p ∈ l, p.1 = k) →
      (l.foldl (fun acc curr => acc.set curr.1 curr.2) acc).get k = some v := by
  induction l with
  | nil =>
    intro acc _ h
    rcases h with h | ⟨p, hp, _⟩
    · exact h
    · simp at hp
  | cons q l ih =>
    intro acc hall h
    simp only [List.foldl]
    apply ih
    · exact fun p hp => hall p (List.mem_cons_of_mem _ hp)
    · by_cases hq : q.1 = k
      · left
        rw [hq, hall q (by simp) hq]
        exact Obj.get_set_self _ _ _
      · rcases h with h | ⟨p, hp, hpk⟩
        · left
          rw [Obj.get_set_ne _ _ _ _ hq]
          exact h
        · rcases List.mem_cons.mp hp with hp | hp
          · exact absurd (hp ▸ hpk) hq
          · exact Or.inr ⟨p, hp, hpk⟩

theorem forall₂_mem_left {α β : Type} (R : α → β → Prop) (l : List α) (bs : List β)
    (h : List.Forall₂ R l bs) (a : α) (ha : a ∈ l) : ∃ b ∈ bs, R a b := by
  induction h with
  | nil => simp at ha
  | cons hab _ ih =>
    rcases List.mem_cons.mp ha with ha | ha
    · subst ha
      exact ⟨_, by simp, hab⟩
    · obtain ⟨b, hb, hr⟩ := ih ha
      exact ⟨b, List.mem_cons_of_mem _ hb, hr⟩

theorem forall₂_mem_right {α β : Type} (R : α → β → Prop) (l : List α) (bs : List β)
    (h : List.Forall₂ R l bs) (b : β) (hb : b ∈ bs) : ∃ a ∈ l, R a b := by
  induction h with
  | nil => simp at hb
  | cons hab _ ih =>
    rcases List.mem_cons.mp hb with hb | hb
    · subst hb
      exact ⟨_, by simp, hab⟩
    · obtain ⟨a, ha, hr⟩ := ih hb
      exact ⟨a, List.mem_cons_of_mem _ ha, hr⟩

theorem fetchStats_exerciseData_of_no_match (remote : Remote) (name uid : String)
    (s : ViewState) (h : remote.exercisesByName name = .ok [])
    (hsel : name ∈ s.selectedExercises)
    (hstats : ∃ data, remote.statsByUser uid = .ok data)
    (hcat : ∀ n ∈ s.selectedExercises, ∃ docs, remote.exercisesByName n = .ok docs) :
    (fetchStats remote (some uid) s).exerciseData.get name = some none := by
  obtain ⟨data, hdata⟩ := hstats
  have hres : ∀ n ∈ s.selectedExercises, ∃ p, resolveExercise remote s.stats n = .ok p := by
    intro n hn
    obtain ⟨docs, hdocs⟩ := hcat n hn
    cases docs with
    | nil => exact ⟨(n, none), by simp [resolveExercise, getExerciseData, getExerciseDocByName, hdocs]⟩
    | cons d docs =>
      exact ⟨(n, some (s.stats.filter (fun stat => stat.exerciseId == d.id))), by
        simp [resolveExercise, getExerciseData, getExerciseDocByName, hdocs]⟩
  obtain ⟨resolved, hmap, hall⟩ := mapExcept_ok _ _ hres
  have hfs : (fetchStats remote (some uid) s).exerciseData = mergeExerciseData resolved := by
    simp only [fetchStats, hdata, hmap]
  rw [hfs, mergeExerciseData]
  apply get_foldl_set
  · intro p hp hpk
    obtain ⟨n, _, hn⟩ := forall₂_mem_right _ _ _ hall p hp
    simp only [resolveExercise] at hn
    cases hg : getExerciseData remote s.stats n with
    | error e => simp [hg] at hn
    | ok d =>
      simp only [hg, Except.ok.injEq] at hn
      subst hn
      simp only at hpk
      subst hpk
      rw [getExerciseData_of_no_match remote s.stats _ h] at hg
      cases hg
      rfl
  · right
    obtain ⟨p, hp, hn⟩ := forall₂_mem_left _ _ _ hall name hsel
    refine ⟨p, hp, ?_⟩
    simp only [resolveExercise, getExerciseData_of_no_match remote s.stats name h,
      Except.ok.injEq] at hn
    rw [← hn]

/-- C9: for a name for which the catalog query returns no exercise,
`getExerciseDocByName` returns `null` and `getExerciseData` returns no entries,
neither throwing; the view then holds `undefined` for that name, both after
`handleAddExercise` of an exercise of that name not yet tracked and after a
load that succeeds with the name tracked, and `renderGraph` for the name
returns the "No data available" placeholder, neither a chart nor an error. -/
theorem no_match_no_data (remote : Remote) (name : String)
    (h : remote.exercisesByName name = .ok []) :
    getExerciseDocByName remote name = .ok none ∧
    (∀ stats, getExerciseData remote stats name = .ok none) ∧
    (∀ loc exerciseData, exerciseData.get name = some none →
      renderGraph loc exerciseData name = .ok (.noData name)) ∧
    (∀ loc s exercise, exercise.name = name → name ∉ s.selectedExercises →
      ∃ t, handleAddExercise remote s exercise = .ok t ∧
        renderGraph loc t.exerciseData name = .ok (.noData name)) ∧
    (∀ loc uid s, name ∈ s.selectedExercises →
      (∃ data, remote.statsByUser uid = .ok data) →
      (∀ n ∈ s.selectedExercises, ∃ docs, remote.exercisesByName n = .ok docs) →
      renderGraph loc (fetchStats remote (some uid) s).exerciseData name =
        .ok (.noData name)) := by
  refine ⟨getExerciseDocByName_of_no_match remote name h,
    fun stats => getExerciseData_of_no_match remote stats name h,
    fun loc exerciseData hg => renderGraph_of_undefined loc exerciseData name hg, ?_, ?_⟩
  · intro loc s exercise hname hnot
    subst hname
    refine ⟨{ s with
              exerciseData := s.exerciseData.set exercise.name none
              selectedExercises := s.selectedExercises ++ [exercise.name]
              isLibraryOpen := false }, ?_, ?_⟩
    · simp [handleAddExercise, hnot, getExerciseData_of_no_match remote s.stats _ h]
    · exact renderGraph_of_undefined _ _ _ (Obj.get_set_self _ _ _)
  · intro loc uid s hsel hstats hcat
    exact renderGraph_of_undefined _ _ _
      (fetchStats_exerciseData_of_no_match remote name uid s h hsel hstats hcat)

theorem no_match_no_data_witness :
    emptyRemote.exercisesByName "Deadlift" = .ok [] ∧
    getExerciseDocByName emptyRemote "Deadlift" = .ok none ∧
    (∀ stats, getExerciseData emptyRemote stats "Deadlift" = .ok none) ∧
    (∀ loc exerciseData, exerciseData.get "Deadlift" = some none →
      renderGraph loc exerciseData "Deadlift" = .ok (.noData "Deadlift")) ∧
    (∀ loc s exercise, exercise.name = "Deadlift" → "Deadlift" ∉ s.selectedExercises →
      ∃ t, handleAddExercise emptyRemote s exercise = .ok t ∧
        renderGraph loc t.exerciseData "Deadlift" = .ok (.noData "Deadlift")) ∧
    (∀ loc uid s, "Deadlift" ∈ s.selectedExercises →
      (∃ data, emptyRemote.statsByUser uid = .ok data) →
      (∀ n ∈ s.selectedExercises, ∃ docs, emptyRemote.exercisesByName n = .ok docs) →
      renderGraph loc (fetchStats emptyRemote (some uid) s).exerciseData "Deadlift" =
        .ok (.noData "Deadlift")) :=
  ⟨rfl, no_match_no_data emptyRemote "Deadlift" rfl⟩

/-- C10: `handleAddExercise` of an exercise whose name is already in
`selectedExercises` changes neither `selectedExercises` nor the cached
`exerciseData`: it only closes the library, and sends no query. -/
theorem handleAddExercise_tracked (remote : Remote) (s : ViewState) (exercise : Exercise)
    (h : exercise.name ∈ s.selectedExercises) :
    handleAddExercise remote s exercise = .ok { s with isLibraryOpen := false } ∧
    ∃ t, handleAddExercise remote s exercise = .ok t ∧
      t.selectedExercises = s.selectedExercises ∧ t.exerciseData = s.exerciseData := by
  have he : handleAddExercise remote s exercise = .ok { s with isLibraryOpen := false } := by
    simp [handleAddExercise, h]
  exact ⟨he, _, he, rfl, rfl⟩

theorem handleAddExercise_tracked_witness :
    (⟨"e1", "Deadlift", some "Back", some "Hinge"⟩ : Exercise).name ∈
      initialState.selectedExercises ∧
    handleAddExercise emptyRemote initialState ⟨"e1", "Deadlift", some "Back", some "Hinge"⟩ =
      .ok { initialState with isLibraryOpen := false } ∧
    ∃ t, handleAddExercise emptyRemote initialState
        ⟨"e1", "Deadlift", some "Back", some "Hinge"⟩ = .ok t ∧
      t.selectedExercises = initialState.selectedExercises ∧
      t.exerciseData = initialState.exerciseData :=
  ⟨by decide,
   handleAddExercise_tracked emptyRemote initialState
     ⟨"e1", "Deadlift", some "Back", some "Hinge"⟩ (by decide)⟩


/-! ### Labels of a day-first locale -/

theorem digitChar_spec (k : Nat) (hk : k < 10) :
    (Nat.digitChar k).isDigit = true ∧ (Nat.digitChar k).toNat - 48 = k := by
  interval_cases k <;> decide

theorem digitsValue_append_singleton (cs : List Char) (c : Char) :
    digitsValue (cs ++ [c]) = 10 * digitsValue cs + (c.toNat - 48) := by
  simp [digitsValue, List.foldl_append]

theorem toDigitsCore_writes (fuel : Nat) :
    ∀ (n : Nat) (ds : List Char), n < fuel →
      ∃ D, Nat.toDigitsCore 10 fuel n ds = D ++ ds ∧ Writes D n := by
  induction fuel with
  | zero => intro n ds h; omega
  | succ fuel ih =>
    intro n ds hn
    obtain ⟨hdig, hval⟩ := digitChar_spec (n % 10) (Nat.mod_lt _ (by decide))
    by_cases h0 : n / 10 = 0
    · refine ⟨[Nat.digitChar (n % 10)], by simp [Nat.toDigitsCore, h0], by simp,
        by simpa using hdig, ?_⟩
      simp only [digitsValue, List.foldl, hval]
      omega
    · obtain ⟨D, hD, hne, hall, hv⟩ := ih (n / 10) (Nat.digitChar (n % 10) :: ds) (by omega)
      refine ⟨D ++ [Nat.digitChar (n % 10)], by simp [Nat.toDigitsCore, h0, hD], by simp,
        ?_, ?_⟩
      · intro c hc
        rcases List.mem_append.mp hc with hc | hc
        · exact hall c hc
        · simp only [List.mem_singleton] at hc
          rw [hc]; exact hdig
      · rw [digitsValue_append_singleton, hv, hval]
        omega

theorem toString_writes (n : Nat) : Writes (toString n).data n := by
  obtain ⟨D, hD, hw⟩ := toDigitsCore_writes (n + 1) n [] (by omega)
  have : (toString n).data = D := by
    show (Nat.repr n).data = D
    simp [Nat.repr, Nat.toDigits, hD, List.asString]
  rw [this]
  exact hw

theorem pad2_writes (n : Nat) (h : n < 100) : Writes (pad2 n) n := by
  obtain ⟨hd1, hv1⟩ := digitChar_spec (n / 10 % 10) (Nat.mod_lt _ (by decide))
  obtain ⟨hd2, hv2⟩ := digitChar_spec (n % 10) (Nat.mod_lt _ (by decide))
  refine ⟨by simp [pad2], ?_, ?_⟩
  · intro c hc
    simp only [pad2, List.mem_cons, List.mem_singleton, List.not_mem_nil, or_false] at hc
    rcases hc with hc | hc <;> rw [hc] <;> assumption
  · simp only [pad2, digitsValue, List.foldl, hv1, hv2]
    omega

theorem Writes.not_mem (cs : List Char) (n : Nat) (h : Writes cs n) (sep : Char)
    (hsep : sep.isDigit = false) : sep ∉ cs := by
  intro hm
  have := h.2.1 sep hm
  rw [hsep] at this
  exact Bool.noConfusion this

theorem parseDigits_of_writes (cs : List Char) (n : Nat) (h : Writes cs n) :
    parseDigits cs = some n := by
  obtain ⟨hne, hall, hv⟩ := h
  have : cs ≠ [] ∧ cs.all Char.isDigit = true := ⟨hne, by simpa using hall⟩
  rw [parseDigits, if_pos this, hv]

theorem split_ne_nil (sep : Char) (cs : List Char) : split sep cs ≠ [] := by
  cases cs with
  | nil => simp [split]
  | cons c cs =>
    simp only [split]
    split
    · simp
    · split <;> simp

theorem split_of_not_mem (sep : Char) (A : List Char) (h : sep ∉ A) : split sep A = [A] := by
  induction A with
  | nil => rfl
  | cons c A ih =>
    have hc : ¬ c = sep := fun e => h (by simp [e])
    have hA : sep ∉ A := fun e => h (List.mem_cons_of_mem _ e)
    simp [split, ih hA, hc]

theorem split_append (sep : Char) (A rest : List Char) (h : sep ∉ A) :
    split sep (A ++ sep :: rest) = A :: split sep rest := by
  induction A with
  | nil =>
    cases hs : split sep rest with
    | nil => exact absurd hs (split_ne_nil sep rest)
    | cons w ws => simp [split, hs]
  | cons c A ih =>
    have hc : ¬ c = sep := fun e => h (by simp [e])
    have hA : sep ∉ A := fun e => h (List.mem_cons_of_mem _ e)
    simp [split, ih hA, hc]

theorem labelDate_of_writes (dd mm yy : List Char) (d m y : Nat)
    (hd : Writes dd d) (hm : Writes mm m) (hy : Writes yy y)
    (hv : 1 ≤ m ∧ m ≤ 12 ∧ 1 ≤ d ∧ d ≤ 31) (a : String)
    (ha : a.data = dd ++ '/' :: (mm ++ '/' :: yy)) :
    labelDate a = some (dayNumber y m d) := by
  have s1 : split '/' a.data = [dd, mm, yy] := by
    rw [ha, split_append _ _ _ (hd.not_mem _ _ '/' (by decide)),
      split_append _ _ _ (hm.not_mem _ _ '/' (by decide)),
      split_of_not_mem _ _ (hy.not_mem _ _ '/' (by decide))]
  have s2 : List.intercalate ['-'] [yy, mm, dd] = yy ++ '-' :: (mm ++ '-' :: dd) := by
    simp [List.intercalate, List.intersperse]
  have s3 : split '-' (yy ++ '-' :: (mm ++ '-' :: dd)) = [yy, mm, dd] := by
    rw [split_append _ _ _ (hy.not_mem _ _ '-' (by decide)),
      split_append _ _ _ (hm.not_mem _ _ '-' (by decide)),
      split_of_not_mem _ _ (hd.not_mem _ _ '-' (by decide))]
  simp only [labelDate, s1, List.reverse_cons, List.reverse_nil, List.nil_append,
    List.cons_append, s2, dateParse, s3, parseDigits_of_writes _ _ hd,
    parseDigits_of_writes _ _ hm, parseDigits_of_writes _ _ hy, hv, and_self, if_true]

/-- In a day-first locale the comparator reads a label as the day it was
made from. -/
theorem labelDate_enGB (d : CalDate)
    (hv : 1 ≤ d.month ∧ d.month ≤ 12 ∧ 1 ≤ d.day ∧ d.day ≤ 31) :
    labelDate (toLocaleDateString .enGB d) = some (dayNumber d.year d.month d.day) := by
  have hd : Writes (if d.day < 10 then pad2 d.day else (toString d.day).data) d.day := by
    split
    · exact pad2_writes _ (by omega)
    · exact toString_writes _
  have hm : Writes (if d.month < 10 then pad2 d.month else (toString d.month).data)
      d.month := by
    split
    · exact pad2_writes _ (by omega)
    · exact toString_writes _
  apply labelDate_of_writes _ _ _ _ _ _ hd hm (toString_writes d.year) hv
  simp [toLocaleDateString, String.data_append]


theorem sortInsert_sorted {α : Type} (cmp : α → α → Option Int) (key : α → Int) (a : α)
    (l : List α) (hcmp : ∀ b ∈ l, ((cmp a b).getD 0 ≤ 0 ↔ key a ≤ key b))
    (hs : l.Pairwise (fun x y => key x ≤ key y)) :
    (sortInsert cmp a l).Pairwise (fun x y => key x ≤ key y) := by
  induction l with
  | nil => simp [sortInsert]
  | cons b l ih =>
    obtain ⟨hb, hl⟩ := List.pairwise_cons.mp hs
    unfold sortInsert
    by_cases h : (cmp a b).getD 0 ≤ 0
    · rw [if_pos h]
      have hab : key a ≤ key b := (hcmp b (by simp)).mp h
      refine List.pairwise_cons.mpr ⟨?_, hs⟩
      intro y hy
      rcases List.mem_cons.mp hy with hy | hy
      · rw [hy]; exact hab
      · exact le_trans hab (hb y hy)
    · rw [if_neg h]
      have hba : key b ≤ key a := by
        have : ¬ key a ≤ key b := fun e => h ((hcmp b (by simp)).mpr e)
        omega
      refine List.pairwise_cons.mpr ⟨?_, ih (fun c hc => hcmp c (List.mem_cons_of_mem _ hc)) hl⟩
      intro y hy
      rcases List.mem_cons.mp ((sortInsert_perm cmp a l).mem_iff.mp hy) with hy | hy
      · rw [hy]; exact hba
      · exact hb y hy

theorem arraySort_sorted {α : Type} (cmp : α → α → Option Int) (key : α → Int) (l : List α)
    (hcmp : ∀ a ∈ l, ∀ b ∈ l, ((cmp a b).getD 0 ≤ 0 ↔ key a ≤ key b)) :
    (arraySort cmp l).Pairwise (fun x y => key x ≤ key y) := by
  induction l with
  | nil => simp [arraySort]
  | cons a l ih =>
    have hrec := ih (fun x hx y hy =>
      hcmp x (List.mem_cons_of_mem _ hx) y (List.mem_cons_of_mem _ hy))
    apply sortInsert_sorted cmp key a _ _ hrec
    intro b hb
    have hb1 : b ∈ l := (arraySort_perm cmp l).mem_iff.mp hb
    exact hcmp a (by simp) b (List.mem_cons_of_mem _ hb1)

theorem exists_map_of_forall_mem {α β : Type} (f : α → β) (P : α → Prop) (L : List β)
    (h : ∀ b ∈ L, ∃ a, P a ∧ f a = b) : ∃ l : List α, L = l.map f ∧ ∀ a ∈ l, P a := by
  induction L with
  | nil => exact ⟨[], rfl, by simp⟩
  | cons b L ih =>
    obtain ⟨a, ha, hab⟩ := h b (by simp)
    obtain ⟨l, hl, hP⟩ := ih (fun c hc => h c (List.mem_cons_of_mem _ hc))
    refine ⟨a :: l, by simp [hab, hl], ?_⟩
    intro x hx
    rcases List.mem_cons.mp hx with hx | hx
    · rw [hx]; exact ha
    · exact hP x hx

/-- Where `toLocaleDateString()` writes day/month/year, the labels come out of
the sort in ascending order of the days they were made from. -/
theorem sortedDates_enGB_chronological (entries : List Entry)
    (hvalid : ∀ e ∈ entries,
      1 ≤ e.date.month ∧ e.date.month ≤ 12 ∧ 1 ≤ e.date.day ∧ e.date.day ≤ 31) :
    ∃ ds : List CalDate, (∀ d ∈ ds, ∃ e ∈ entries, e.date = d) ∧
      sortedDates (groupedData .enGB entries) = ds.map (toLocaleDateString .enGB) ∧
      ds.Pairwise (fun a b =>
        dayNumber a.year a.month a.day ≤ dayNumber b.year b.month b.day) := by
  obtain ⟨_, hkeys, _⟩ := groupInv_groupedData .enGB entries
  have hsrc : ∀ a ∈ (groupedData .enGB entries).keys,
      ∃ d : CalDate, (∃ e ∈ entries, e.date = d) ∧ toLocaleDateString .enGB d = a := by
    intro a ha
    obtain ⟨e, he, hea⟩ := (hkeys a).mp ha
    exact ⟨e.date, ⟨e, he, rfl⟩, hea⟩
  have hkey : ∀ d : CalDate, (∃ e ∈ entries, e.date = d) →
      labelDate (toLocaleDateString .enGB d) = some (dayNumber d.year d.month d.day) := by
    rintro d ⟨e, he, rfl⟩
    exact labelDate_enGB _ (hvalid e he)
  have hsorted : (sortedDates (groupedData .enGB entries)).Pairwise
      (fun x y => (labelDate x).getD 0 ≤ (labelDate y).getD 0) := by
    apply arraySort_sorted
    intro a ha b hb
    obtain ⟨da, hda, rfl⟩ := hsrc a ha
    obtain ⟨db, hdb, rfl⟩ := hsrc b hb
    simp only [compareLabels, hkey da hda, hkey db hdb, Option.getD_some]
    omega
  obtain ⟨ds, hds, hP⟩ := exists_map_of_forall_mem (toLocaleDateString .enGB)
    (fun d => ∃ e ∈ entries, e.date = d) (sortedDates (groupedData .enGB entries))
    (fun a ha => hsrc a ((sortedDates_perm _).mem_iff.mp ha))
  refine ⟨ds, hP, hds, ?_⟩
  rw [hds, List.pairwise_map] at hsorted
  refine hsorted.imp_of_mem ?_
  intro a b ha hb hab
  simpa only [hkey a (hP a ha), hkey b (hP b hb), Option.getD_some] using hab

/-! ### The entries of a tracked exercise -/

theorem mapExcept_error {α β : Type} (f : α → Except String β) (l : List α)
    (h : ∃ a ∈ l, ∃ e, f a = .error e) : ∃ e, mapExcept f l = .error e := by
  induction l with
  | nil =>
    obtain ⟨a, ha, _⟩ := h
    simp at ha
  | cons a l ih =>
    cases hfa : f a with
    | error e => exact ⟨e, by simp only [mapExcept, hfa]⟩
    | ok b =>
      obtain ⟨x, hx, e, hxe⟩ := h
      rcases List.mem_cons.mp hx with hx | hx
      · subst hx
        rw [hfa] at hxe
        exact Except.noConfusion hxe
      · obtain ⟨e1, he1⟩ := ih ⟨x, hx, e, hxe⟩
        exact ⟨e1, by simp only [mapExcept, hfa, he1]⟩

/-- After a load in which every query succeeds, the entry list cached for a
tracked name is what `getExerciseData` returns for it on the `stats` of the
render that started the load. -/
theorem fetchStats_exerciseData_get (remote : Remote) (name uid : String) (s : ViewState)
    (v : Option (List Entry)) (hv : getExerciseData remote s.stats name = .ok v)
    (hsel : name ∈ s.selectedExercises)
    (hstats : ∃ data, remote.statsByUser uid = .ok data)
    (hcat : ∀ n ∈ s.selectedExercises, ∃ docs, remote.exercisesByName n = .ok docs) :
    (fetchStats remote (some uid) s).exerciseData.get name = some v := by
  obtain ⟨data, hdata⟩ := hstats
  have hres : ∀ n ∈ s.selectedExercises, ∃ p, resolveExercise remote s.stats n = .ok p := by
    intro n hn
    obtain ⟨docs, hdocs⟩ := hcat n hn
    cases docs with
    | nil =>
      exact ⟨(n, none), by simp [resolveExercise, getExerciseData, getExerciseDocByName, hdocs]⟩
    | cons d docs =>
      exact ⟨(n, some (s.stats.filter (fun stat => stat.exerciseId == d.id))), by
        simp [resolveExercise, getExerciseData, getExerciseDocByName, hdocs]⟩
  obtain ⟨resolved, hmap, hall⟩ := mapExcept_ok _ _ hres
  have hfs : (fetchStats remote (some uid) s).exerciseData = mergeExerciseData resolved := by
    simp only [fetchStats, hdata, hmap]
  rw [hfs, mergeExerciseData]
  apply get_foldl_set
  · intro p hp hpk
    obtain ⟨n, _, hn⟩ := forall₂_mem_right _ _ _ hall p hp
    simp only [resolveExercise] at hn
    cases hg : getExerciseData remote s.stats n with
    | error e => simp [hg] at hn
    | ok d =>
      simp only [hg, Except.ok.injEq] at hn
      subst hn
      simp only at hpk
      subst hpk
      rw [hv] at hg
      cases hg
      rfl
  · right
    obtain ⟨p, hp, hn⟩ := forall₂_mem_left _ _ _ hall name hsel
    refine ⟨p, hp, ?_⟩
    simp only [resolveExercise, hv, Except.ok.injEq] at hn
    rw [← hn]

/-- The entries a successful load caches for a tracked name that resolves
to an exercise are filtered out of the `stats` state of the render that
started the load, and the entries the load has fetched go to the `stats` of
the next render. -/
theorem fetchStats_filters_previous_stats (remote : Remote) (name uid : String)
    (s : ViewState) (data : List Entry) (exerciseDoc : Exercise)
    (hdoc : getExerciseDocByName remote name = .ok (some exerciseDoc))
    (hsel : name ∈ s.selectedExercises)
    (hstats : remote.statsByUser uid = .ok data)
    (hcat : ∀ n ∈ s.selectedExercises, ∃ docs, remote.exercisesByName n = .ok docs) :
    (fetchStats remote (some uid) s).stats = data ∧
    (fetchStats remote (some uid) s).exerciseData.get name =
      some (some (s.stats.filter (fun stat => stat.exerciseId == exerciseDoc.id))) := by
  refine ⟨?_, ?_⟩
  · have hres : ∀ n ∈ s.selectedExercises,
        ∃ p, resolveExercise remote s.stats n = .ok p := by
      intro n hn
      obtain ⟨docs, hdocs⟩ := hcat n hn
      cases docs with
      | nil =>
        exact ⟨(n, none), by
          simp [resolveExercise, getExerciseData, getExerciseDocByName, hdocs]⟩
      | cons d docs =>
        exact ⟨(n, some (s.stats.filter (fun stat => stat.exerciseId == d.id))), by
          simp [resolveExercise, getExerciseData, getExerciseDocByName, hdocs]⟩
    obtain ⟨resolved, hmap, _⟩ := mapExcept_ok _ _ hres
    simp only [fetchStats, hstats, hmap]
  · apply fetchStats_exerciseData_get remote name uid s _ _ hsel ⟨data, hstats⟩ hcat
    simp only [getExerciseData, hdoc]

/-- C11, the code at the failing input: the first load of the view, for a
user with two logged deadlift sets. The load fetches both sets and the name
`Deadlift` resolves to the exercise both belong to, yet the list cached for
`Deadlift` is empty: it was filtered out of the empty `stats` of the first
render, not out of the entries just fetched. -/
theorem fetchStats_first_load_caches_nothing :
    deadliftRemote.statsByUser "u1" = .ok [loggedOct11, loggedNov10] ∧
    getExerciseDocByName deadliftRemote "Deadlift" =
      .ok (some ⟨"deadlift", "Deadlift", some "Back", some "Hinge"⟩) ∧
    [loggedOct11, loggedNov10].filter (fun stat => stat.exerciseId == "deadlift") =
      [loggedOct11, loggedNov10] ∧
    "Deadlift" ∈ initialState.selectedExercises ∧
    (fetchStats deadliftRemote (some "u1") initialState).error = none ∧
    (fetchStats deadliftRemote (some "u1") initialState).stats = [loggedOct11, loggedNov10] ∧
    (fetchStats deadliftRemote (some "u1") initialState).exerciseData.get "Deadlift" =
      some (some []) := by
  refine ⟨rfl, rfl, rfl, by decide, rfl, rfl, rfl⟩

theorem sublist_filter_of_forall {α : Type} (p : α → Bool) (l l1 : List α)
    (hsub : l1.Sublist l) (hall : ∀ a ∈ l1, p a = true) : l1.Sublist (l.filter p) := by
  have h := hsub.filter p
  rwa [List.filter_eq_self.mpr hall] at h

/-- C12: for a name that resolves to an exercise document, the entries
`getExerciseData` selects are a sublist of the logged entries, in their
order, that holds exactly the entries whose `exerciseId` is the identifier of
the document: it is the filter by that equality, and every sublist of entries
of that identifier is a sublist of it. -/
theorem getExerciseData_selects (remote : Remote) (stats : List Entry)
    (exerciseName : String) (exerciseDoc : Exercise)
    (h : getExerciseDocByName remote exerciseName = .ok (some exerciseDoc)) :
    ∃ selected, getExerciseData remote stats exerciseName = .ok (some selected) ∧
      selected = stats.filter (fun e => decide (e.exerciseId = exerciseDoc.id)) ∧
      selected.Sublist stats ∧
      (∀ e, e ∈ selected ↔ e ∈ stats ∧ e.exerciseId = exerciseDoc.id) ∧
      (∀ other : List Entry, other.Sublist stats →
        (∀ e ∈ other, e.exerciseId = exerciseDoc.id) → other.Sublist selected) := by
  refine ⟨stats.filter (fun stat => stat.exerciseId == exerciseDoc.id), ?_, ?_,
    List.filter_sublist _, ?_, ?_⟩
  · simp only [getExerciseData, h]
  · apply List.filter_congr
    intro e _
    rw [Bool.eq_iff_iff, beq_iff_eq, decide_eq_true_iff]
  · intro e
    simp [List.mem_filter]
  · intro other hsub hall
    exact sublist_filter_of_forall _ _ _ hsub (fun e he => by simpa using hall e he)

theorem getExerciseData_selects_witness :
    getExerciseDocByName deadliftRemote "Deadlift" =
      .ok (some ⟨"deadlift", "Deadlift", some "Back", some "Hinge"⟩) ∧
    ∃ selected, getExerciseData deadliftRemote [loggedOct11, loggedSquat, loggedNov10]
        "Deadlift" = .ok (some selected) ∧
      selected = [loggedOct11, loggedSquat, loggedNov10].filter
        (fun e => decide (e.exerciseId =
          (⟨"deadlift", "Deadlift", some "Back", some "Hinge"⟩ : Exercise).id)) ∧
      selected.Sublist [loggedOct11, loggedSquat, loggedNov10] ∧
      (∀ e, e ∈ selected ↔ e ∈ [loggedOct11, loggedSquat, loggedNov10] ∧
        e.exerciseId = (⟨"deadlift", "Deadlift", some "Back", some "Hinge"⟩ : Exercise).id) ∧
      (∀ other : List Entry, other.Sublist [loggedOct11, loggedSquat, loggedNov10] →
        (∀ e ∈ other,
          e.exerciseId = (⟨"deadlift", "Deadlift", some "Back", some "Hinge"⟩ : Exercise).id) →
        other.Sublist selected) :=
  ⟨rfl, getExerciseData_selects deadliftRemote [loggedOct11, loggedSquat, loggedNov10]
    "Deadlift" ⟨"deadlift", "Deadlift", some "Back", some "Hinge"⟩ rfl⟩

/-- The selection on three logged sets, the second of another exercise. -/
theorem getExerciseData_example :
    getExerciseData deadliftRemote [loggedOct11, loggedSquat, loggedNov10] "Deadlift" =
      .ok (some [loggedOct11, loggedNov10]) := by
  rfl

/-! ### The divisor of the estimate -/

theorem roundToDouble_zero : roundToDouble 0 = .fin 0 := by
  have h : ¬ ((2 : ℚ) ^ (1024 : ℤ) ≤ 0) := not_le.mpr (two_zpow_pos _)
  simp only [roundToDouble, abs_zero, roundedMagnitude_zero, h, if_false, lt_self_iff_false,
    neg_zero]

/-- With reps below 37 the rounded quotient `36 / (37 - reps)` is a finite
number from 0 to 64. -/
theorem quotient_of_reps_lt (reps : ℤ) (h : reps < 37) :
    ∃ x, JSNum.toDouble (JSNum.div (.fin 36) (JSNum.toDouble (.fin (37 - (reps : ℚ))))) =
        .fin x ∧ 0 ≤ x ∧ x ≤ 64 := by
  have hd : (1 : ℚ) ≤ 37 - (reps : ℚ) := by
    have : (reps : ℚ) ≤ 36 := by exact_mod_cast (by omega : reps ≤ 36)
    linarith
  rcases roundToDouble_of_one_le _ hd with ⟨v, hv, hv1⟩ | hinf
  · have hv0 : ¬ v = 0 := by
      intro h0; rw [h0] at hv1; norm_num at hv1
    have hpos : 0 < 36 / v := div_pos (by norm_num) (lt_of_lt_of_le one_pos hv1)
    have hle : 36 / v ≤ 36 := by
      rw [div_le_iff₀ (lt_of_lt_of_le one_pos hv1)]
      nlinarith
    obtain ⟨x, hx, hxb, hx0, _⟩ := roundToDouble_of_abs_lt (36 / v) 6
      (by rw [abs_of_pos hpos]; norm_num; linarith) (by norm_num) (by norm_num)
    refine ⟨x, ?_, hx0 (le_of_lt hpos), ?_⟩
    · simp only [JSNum.toDouble, hv, JSNum.div, hv0, if_false, hx]
    · have := le_trans (le_abs_self x) hxb
      norm_num at this
      exact this
  · refine ⟨0, ?_, le_refl _, by norm_num⟩
    simp only [JSNum.toDouble, hinf, JSNum.div, roundToDouble_zero]

theorem est1RM_of_reps_lt (weight : ℚ) (reps : ℤ) (h : reps < 37) :
    est1RM weight reps ≠ .nan ∧
    (0 ≤ weight →
      (∃ k : ℤ, est1RM weight reps = .fin k ∧ 0 ≤ k) ∨ est1RM weight reps = .posInf) ∧
    (|weight| ≤ 2 ^ 1000 →
      ∃ k : ℤ, est1RM weight reps = .fin k ∧ (0 ≤ weight → 0 ≤ k)) := by
  obtain ⟨x, hx, hx0, hx64⟩ := quotient_of_reps_lt reps h
  have he : est1RM weight reps = JSNum.round (roundToDouble (weight * x)) := by
    rw [est1RM, hx]
    rfl
  have hfloor : ∀ v : ℚ, 0 ≤ v → (0 : ℤ) ≤ ⌊v + 1 / 2⌋ := fun v hv =>
    Int.floor_nonneg.mpr (by linarith)
  rw [he]
  refine ⟨?_, ?_, ?_⟩
  · have hn := roundToDouble_ne_nan (weight * x)
    cases hr : roundToDouble (weight * x) with
    | fin v => exact fun e => JSNum.noConfusion e
    | posInf => exact fun e => JSNum.noConfusion e
    | negInf => exact fun e => JSNum.noConfusion e
    | nan => exact absurd hr hn
  · intro hw
    rcases roundToDouble_of_nonneg _ (mul_nonneg hw hx0) with ⟨v, hv, hv0⟩ | hinf
    · left
      exact ⟨⌊v + 1 / 2⌋, by rw [hv]; rfl, hfloor v hv0⟩
    · right
      rw [hinf]; rfl
  · intro hw
    have hb : |weight * x| < 2 ^ (1007 : ℤ) := by
      rw [abs_mul, abs_of_nonneg hx0]
      have h1 : |weight| * x ≤ 2 ^ 1000 * 64 :=
        mul_le_mul hw hx64 hx0 (by positivity)
      have h2 : (2 : ℚ) ^ 1000 * 64 < 2 ^ (1007 : ℤ) := by
        have : (2 : ℚ) ^ (1007 : ℤ) = 2 ^ 1000 * 128 := by
          rw [show (1007 : ℤ) = ((1007 : ℕ) : ℤ) from rfl, zpow_natCast]
          rw [show (1007 : ℕ) = 1000 + 7 from rfl, pow_add]
          norm_num
        rw [this]
        have hp : (0 : ℚ) < 2 ^ 1000 := by positivity
        linarith
      exact lt_of_le_of_lt h1 h2
    obtain ⟨v, hv, _, hv0, _⟩ := roundToDouble_of_abs_lt (weight * x) 1007 hb (by norm_num)
      (by norm_num)
    exact ⟨⌊v + 1 / 2⌋, by rw [hv]; rfl, fun hw0 => hfloor v (hv0 (mul_nonneg hw0 hx0))⟩

theorem est1RM_at_37 (weight : ℚ) :
    est1RM weight 37 =
      (if weight = 0 then JSNum.nan else if 0 < weight then JSNum.posInf else JSNum.negInf) := by
  have h0 : (37 : ℚ) - ((37 : ℤ) : ℚ) = 0 := by norm_num
  have hq : JSNum.toDouble (JSNum.div (.fin 36) (JSNum.toDouble (.fin (37 - ((37 : ℤ) : ℚ))))) =
      .posInf := by
    simp [h0, JSNum.toDouble, roundToDouble_zero, JSNum.div]
  rw [est1RM, hq]
  rcases lt_trichotomy weight 0 with hw | hw | hw
  · have h1 : ¬ (0 < weight) := not_lt.mpr (le_of_lt hw)
    have h2 : weight ≠ 0 := ne_of_lt hw
    simp [JSNum.mul, JSNum.toDouble, JSNum.round, h1, h2]
  · simp [JSNum.mul, JSNum.toDouble, JSNum.round, hw]
  · have h2 : weight ≠ 0 := ne_of_gt hw
    simp [JSNum.mul, JSNum.toDouble, JSNum.round, hw, h2]

/-- C13: with reps below 37 the divisor `37 - reps` of the estimate is
positive and the quotient `36 / (37 - reps)` is a finite number, no division
by zero; the estimate is never NaN, for a weight that is not negative it is
an integer that is not negative, or `Infinity` where the product is beyond
the doubles, and for a weight up to `2 ^ 1000` in magnitude it is an integer,
both where `calculateStats` computes it and where `renderGraph` does. With
reps 37 the divisor is zero and the division gives an infinity; with reps
above 37 the divisor is negative. -/
theorem est1RM_divisor (weight : ℚ) (reps : ℤ) :
    (reps < 37 →
      0 < 37 - (reps : ℚ) ∧
      JSNum.div (.fin 36) (.fin (37 - (reps : ℚ))) = .fin (36 / (37 - (reps : ℚ))) ∧
      (est1RM weight reps ≠ .nan ∧
        (0 ≤ weight →
          (∃ k : ℤ, est1RM weight reps = .fin k ∧ 0 ≤ k) ∨ est1RM weight reps = .posInf) ∧
        (|weight| ≤ 2 ^ 1000 →
          ∃ k : ℤ, est1RM weight reps = .fin k ∧ (0 ≤ weight → 0 ≤ k))) ∧
      (∀ (E : List Entry) (hne : E ≠ []),
        (E.getLast hne).weight = weight → (E.getLast hne).reps = reps →
        ∃ (s : Stats) (x : JSNum), calculateStats (some E) = .ok s ∧
          s.estimated1RM = some x ∧ x ≠ .nan ∧
          (0 ≤ weight → (∃ k : ℤ, x = .fin k ∧ 0 ≤ k) ∨ x = .posInf) ∧
          (|weight| ≤ 2 ^ 1000 → ∃ k : ℤ, x = .fin k ∧ (0 ≤ weight → 0 ≤ k))) ∧
      (∀ (groupedData : Obj Entry) (date : String) (e : Entry),
        groupedData.get date = some e → e.weight = weight → e.reps = reps →
        ∃ x : JSNum, est1RMAt groupedData date = .ok x ∧ x ≠ .nan ∧
          (0 ≤ weight → (∃ k : ℤ, x = .fin k ∧ 0 ≤ k) ∨ x = .posInf) ∧
          (|weight| ≤ 2 ^ 1000 → ∃ k : ℤ, x = .fin k ∧ (0 ≤ weight → 0 ≤ k)))) ∧
    (reps = 37 →
      37 - (reps : ℚ) = 0 ∧
      JSNum.div (.fin 36) (.fin (37 - (reps : ℚ))) = .posInf ∧
      est1RM weight reps =
        (if weight = 0 then JSNum.nan else if 0 < weight then JSNum.posInf
          else JSNum.negInf)) ∧
    (37 < reps →
      37 - (reps : ℚ) < 0 ∧
      JSNum.div (.fin 36) (.fin (37 - (reps : ℚ))) = .fin (36 / (37 - (reps : ℚ))) ∧
      36 / (37 - (reps : ℚ)) < 0) := by
  refine ⟨?_, ?_, ?_⟩
  · intro h
    have hd : 0 < 37 - (reps : ℚ) := by
      have : (reps : ℚ) < 37 := by exact_mod_cast h
      linarith
    obtain ⟨hnan, hpos, hfin⟩ := est1RM_of_reps_lt weight reps h
    refine ⟨hd, ?_, ⟨hnan, hpos, hfin⟩, ?_, ?_⟩
    · simp only [JSNum.div, ne_of_gt hd, if_false]
    · intro E hne hw hr
      refine ⟨_, est1RM weight reps, calculateStats_of_ne_nil E hne, ?_, hnan, hpos, hfin⟩
      simp only [hw, hr]
    · intro g date e hg hw hr
      exact ⟨est1RM weight reps, by simp only [est1RMAt, hg, hw, hr], hnan, hpos, hfin⟩
  · intro h
    subst h
    refine ⟨by norm_num, ?_, est1RM_at_37 weight⟩
    simp [JSNum.div]
  · intro h
    have hd : 37 - (reps : ℚ) < 0 := by
      have : (37 : ℚ) < reps := by exact_mod_cast h
      linarith
    refine ⟨hd, ?_, div_neg_of_pos_of_neg (by norm_num) hd⟩
    simp only [JSNum.div, ne_of_lt hd, if_false]

/-! ### The phases of a load -/

theorem fetchStats_loading (remote : Remote) (currentUser : Option String) (s : ViewState) :
    (fetchStats remote currentUser s).loading = false := by
  unfold fetchStats
  split
  · rfl
  · split
    · rfl
    · split <;> rfl

theorem phase_of_not_loading (s : ViewState) (h : s.loading = false) :
    phase s ≠ .loading := by
  unfold phase
  rw [h]
  simp only [Bool.false_eq_true, if_false]
  split
  · exact fun e => Phase.noConfusion e
  · split <;> exact fun e => Phase.noConfusion e

theorem fetchStats_of_success (remote : Remote) (uid : String) (s : ViewState)
    (hstats : ∃ data, remote.statsByUser uid = .ok data)
    (hcat : ∀ n ∈ s.selectedExercises, ∃ docs, remote.exercisesByName n = .ok docs) :
    (fetchStats remote (some uid) s).error = s.error := by
  obtain ⟨data, hdata⟩ := hstats
  have hres : ∀ n ∈ s.selectedExercises, ∃ p, resolveExercise remote s.stats n = .ok p := by
    intro n hn
    obtain ⟨docs, hdocs⟩ := hcat n hn
    cases docs with
    | nil =>
      exact ⟨(n, none), by simp [resolveExercise, getExerciseData, getExerciseDocByName, hdocs]⟩
    | cons d docs =>
      exact ⟨(n, some (s.stats.filter (fun stat => stat.exerciseId == d.id))), by
        simp [resolveExercise, getExerciseData, getExerciseDocByName, hdocs]⟩
  obtain ⟨resolved, hmap, _⟩ := mapExcept_ok _ _ hres
  simp only [fetchStats, hdata, hmap]

theorem fetchStats_of_fetch_error (remote : Remote) (uid : String) (s : ViewState)
    (h : ∃ e, remote.statsByUser uid = .error e) :
    (fetchStats remote (some uid) s).error = some "Failed to fetch statistics" := by
  obtain ⟨e, he⟩ := h
  simp only [fetchStats, he]

theorem fetchStats_of_query_error (remote : Remote) (uid : String) (s : ViewState)
    (hstats : ∃ data, remote.statsByUser uid = .ok data)
    (h : ∃ n ∈ s.selectedExercises, ∃ e, remote.exercisesByName n = .error e) :
    (fetchStats remote (some uid) s).error = some "Failed to fetch statistics" := by
  obtain ⟨data, hdata⟩ := hstats
  obtain ⟨n, hn, e, he⟩ := h
  obtain ⟨e1, he1⟩ := mapExcept_error (resolveExercise remote s.stats) s.selectedExercises
    ⟨n, hn, e, by simp [resolveExercise, getExerciseData, getExerciseDocByName, he]⟩
  simp only [fetchStats, hdata, he1]

theorem phase_failed (s : ViewState) (hl : s.loading = false)
    (he : s.error = some "Failed to fetch statistics") :
    phase s = .failed "Failed to fetch statistics" := by
  unfold phase
  rw [hl, he]
  decide

theorem phase_ready (s : ViewState) (hl : s.loading = false) (he : s.error = none) :
    phase s = .ready := by
  unfold phase
  rw [hl, he]
  rfl

/-- C14, the counterexample: the first load fails and the view shows the
error; the tracked set then changes and the next load succeeds, its fetch and
every query returning, yet the view still shows the error, not the charts. -/
theorem statsEffect_success_after_failure :
    phase (statsEffect failingRemote (some "u1") initialState) =
      .failed "Failed to fetch statistics" ∧
    deadliftRemote.statsByUser "u1" = .ok [loggedOct11, loggedNov10] ∧
    (∀ n, ∃ docs, deadliftRemote.exercisesByName n = .ok docs) ∧
    phase (statsEffect deadliftRemote (some "u1")
      { statsEffect failingRemote (some "u1") initialState with
        selectedExercises := initialState.selectedExercises ++ ["Romanian Deadlift"] }) =
      .failed "Failed to fetch statistics" ∧
    phase (statsEffect deadliftRemote (some "u1")
      { statsEffect failingRemote (some "u1") initialState with
        selectedExercises := initialState.selectedExercises ++ ["Romanian Deadlift"] }) ≠
      .ready := by
  refine ⟨by decide, rfl, ?_, by decide, by decide⟩
  intro n
  by_cases h : n = "Deadlift"
  · exact ⟨[⟨"deadlift", "Deadlift", some "Back", some "Hinge"⟩], by
      simp only [deadliftRemote, h, if_true]⟩
  · exact ⟨[], by simp only [deadliftRemote, h, if_false]⟩

/-- C14, as amended: every load starts with the view loading and ends with
the view no longer loading. If the fetch of the entries threw, or a query for
a tracked exercise did, the view shows the error 'Failed to fetch
statistics'. If the fetch and every query succeeded the load leaves `error`
as it found it: the view is ready when no earlier load has failed, and still
shows the error of an earlier failed load, which nothing clears. -/
theorem statsEffect_phase (remote : Remote) (uid : String) (s : ViewState) :
    phase (startLoad s) = .loading ∧
    phase (statsEffect remote (some uid) s) ≠ .loading ∧
    ((∃ e, remote.statsByUser uid = .error e) →
      phase (statsEffect remote (some uid) s) = .failed "Failed to fetch statistics") ∧
    ((∃ data, remote.statsByUser uid = .ok data) →
      (∃ n ∈ s.selectedExercises, ∃ e, remote.exercisesByName n = .error e) →
      phase (statsEffect remote (some uid) s) = .failed "Failed to fetch statistics") ∧
    ((∃ data, remote.statsByUser uid = .ok data) →
      (∀ n ∈ s.selectedExercises, ∃ docs, remote.exercisesByName n = .ok docs) →
      (statsEffect remote (some uid) s).error = s.error ∧
      (s.error = none → phase (statsEffect remote (some uid) s) = .ready) ∧
      (s.error = some "Failed to fetch statistics" →
        phase (statsEffect remote (some uid) s) = .failed "Failed to fetch statistics")) := by
  have hl : (statsEffect remote (some uid) s).loading = false := fetchStats_loading _ _ _
  refine ⟨rfl, phase_of_not_loading _ hl, ?_, ?_, ?_⟩
  · intro h
    exact phase_failed _ hl (fetchStats_of_fetch_error remote uid (startLoad s) h)
  · intro hstats h
    exact phase_failed _ hl (fetchStats_of_query_error remote uid (startLoad s) hstats h)
  · intro hstats hcat
    have he : (statsEffect remote (some uid) s).error = s.error :=
      fetchStats_of_success remote uid (startLoad s) hstats hcat
    refine ⟨he, ?_, ?_⟩
    · intro h0
      exact phase_ready _ hl (he.trans h0)
    · intro h1
      exact phase_failed _ hl (he.trans h1)

/-! ### The estimated duration of a workout plan -/

theorem foldl_add_length (groups : List SetGroup) :
    ∀ total : Nat, groups.foldl (fun total group => total + group.sets.length) total =
      total + (groups.map (fun group => group.sets.length)).sum := by
  induction groups with
  | nil => intro total; simp
  | cons g groups ih =>
    intro total
    simp only [List.foldl, ih, List.map_cons, List.sum_cons]
    omega

theorem calculateEstimatedDuration_eq (workoutPlan : WorkoutPlan) :
    calculateEstimatedDuration workoutPlan =
      2 * (workoutPlan.setGroups.map (fun group => group.sets.length)).sum := by
  simp only [calculateEstimatedDuration, foldl_add_length]
  omega

/-- C15: `calculateEstimatedDuration` returns two minutes times the total
number of sets, the total being the sum over the set groups of the length of
the `sets` list of each; it is 0 for a plan without set groups, and the
duration of a plan whose set groups are two lists one after the other is the
sum of the durations of the plans of each list. -/
theorem calculateEstimatedDuration_spec (workoutPlan : WorkoutPlan) :
    calculateEstimatedDuration workoutPlan =
      2 * (workoutPlan.setGroups.map (fun group => group.sets.length)).sum ∧
    (∀ id name : String, calculateEstimatedDuration ⟨id, name, []⟩ = 0) ∧
    (∀ (id name : String) (groups1 groups2 : List SetGroup),
      calculateEstimatedDuration ⟨id, name, groups1 ++ groups2⟩ =
        calculateEstimatedDuration ⟨id, name, groups1⟩ +
          calculateEstimatedDuration ⟨id, name, groups2⟩) := by
  refine ⟨calculateEstimatedDuration_eq workoutPlan, ?_, ?_⟩
  · intro id name
    rfl
  · intro id name groups1 groups2
    simp only [calculateEstimatedDuration_eq, List.map_append, List.sum_append]
    omega

/-- The duration of a plan of a super set of two sets and a group of one
set: six minutes. -/
theorem calculateEstimatedDuration_example :
    calculateEstimatedDuration
      ⟨"p1", "Pull day",
        [⟨true, 3, [⟨"deadlift", 3, 5, none⟩, ⟨"row", 3, 8, none⟩]⟩,
         ⟨false, 1, [⟨"curl", 3, 12, some "slow"⟩]⟩]⟩ = 6 := by
  decide

end FitnessTracker
